import Mathlib

/-!
Verification of the background-job and pipeline orchestrator
(`api.py`, `scheduler.py`, `models.py`) against its specification.

The Python sources are shallowly embedded:
* Python dicts that are used as ordered key/value maps become association
  lists (`List (String × _)`) with insertion-order-preserving update;
* JSON values become the inductive type `JValue` (numbers are modelled as
  `Int`: the engines only store integral counters in the fields the
  scheduler reads);
* the regex `\{\{\s*steps\.(\w+)\.output\.(\w+)\s*\}\}` becomes the
  deterministic scanner `matchToken` (for this pattern, greedy matching
  never backtracks, so maximal-munch scanning is exactly `re.sub`);
* `while` loops and `for` loops with early exit become fuel-indexed
  structural recursions; the fuel supplied is proved (or chosen) large
  enough that the fuel-exhaustion branch is unreachable;
* exceptions become `Except String`, an exception being its message text.
-/

set_option maxHeartbeats 1000000
set_option maxRecDepth 10000

namespace RunningAgent

/-! ### Ordered dictionaries (Python `dict` as association list) -/

/-- Keys of an association list, in order. -/
def dictKeys {α : Type} (d : List (String × α)) : List String :=
  d.map Prod.fst

/-- Lookup, first matching key (keys are kept unique by `dictSet`). -/
def dictGet {α : Type} (d : List (String × α)) (k : String) : Option α :=
  (d.find? (fun p => p.1 = k)).map Prod.snd

/-- Python dict assignment: overwrite in place if the key exists (keeping
its position), otherwise append at the end. -/
def dictSet {α : Type} : List (String × α) → String → α → List (String × α)
  | [], k, v => [(k, v)]
  | p :: ps, k, v => if p.1 = k then (k, v) :: ps else p :: dictSet ps k v

/-! ### JSON values (`json` module) -/

/-- JSON values as stored in step outputs.  Numbers are modelled as `Int`. -/
inductive JValue : Type where
  | null : JValue
  | bool : Bool → JValue
  | num : Int → JValue
  | str : String → JValue
  | arr : List JValue → JValue
  | obj : List (String × JValue) → JValue

/-- Left brace / right brace as characters (used to build literal text). -/
def lbrace : Char := Char.ofNat 123

def rbrace : Char := Char.ofNat 125

/-- Escape one character inside a JSON string literal, as `json.dumps` does
for the ASCII data the agents produce. -/
def jsonEscapeChar (c : Char) : String :=
  if c = Char.ofNat 34 then "\\\""
  else if c = Char.ofNat 92 then "\\\\"
  else if c = Char.ofNat 10 then "\\n"
  else if c = Char.ofNat 9 then "\\t"
  else if c = Char.ofNat 13 then "\\r"
  else String.mk [c]

/-- JSON string literal with quotes. -/
def jsonQuote (s : String) : String :=
  "\"" ++ String.join (s.toList.map jsonEscapeChar) ++ "\""

mutual

/-- Serialise a JSON value the way `json.dumps` does with default
separators (`", "` between items, `": "` after keys). -/
def jsonDumps : JValue → String
  | .null => "null"
  | .bool true => "true"
  | .bool false => "false"
  | .num n => toString n
  | .str s => jsonQuote s
  | .arr l => "[" ++ jsonDumpsList l ++ "]"
  | .obj l => String.mk [lbrace] ++ jsonDumpsObj l ++ String.mk [rbrace]

def jsonDumpsList : List JValue → String
  | [] => ""
  | [v] => jsonDumps v
  | v :: vs => jsonDumps v ++ ", " ++ jsonDumpsList vs

def jsonDumpsObj : List (String × JValue) → String
  | [] => ""
  | [(k, v)] => jsonQuote k ++ ": " ++ jsonDumps v
  | (k, v) :: vs => jsonQuote k ++ ": " ++ jsonDumps v ++ ", " ++ jsonDumpsObj vs

end

/-- Test for JSON null (`value is None` in the source). -/
def JValue.isNull : JValue → Bool
  | .null => true
  | _ => false

/-! ### Template variable resolution (`scheduler.resolve_templates`)

The regex is `\{\{\s*steps\.(\w+)\.output\.(\w+)\s*\}\}`.  Each `\w+` is
followed by a non-word character in the pattern and each `\s*` by a
non-space character, so the regex engine never backtracks on this pattern
and left-to-right maximal-munch scanning reproduces `re.sub` exactly. -/

/-- ASCII word character (`\w` on the strings this system handles). -/
def isWordChar (c : Char) : Bool :=
  c.isAlphanum || c = '_'

/-- ASCII whitespace (`\s`). -/
def isSpaceChar (c : Char) : Bool :=
  c = ' ' || c = Char.ofNat 9 || c = Char.ofNat 10 || c = Char.ofNat 13
    || c = Char.ofNat 11 || c = Char.ofNat 12

/-- Strip an expected literal prefix, returning the remainder. -/
def dropLit : List Char → List Char → Option (List Char)
  | [], cs => some cs
  | _ :: _, [] => none
  | p :: ps, c :: cs => if c = p then dropLit ps cs else none

/-- The literal chunk `steps.` of the pattern. -/
def stepsDot : List Char := "steps.".toList

/-- The literal chunk `.output.` of the pattern. -/
def outputDot : List Char := ".output.".toList

/-- A successful match of the template regex at the head of the input:
the two whitespace runs, the two captured groups, and the input remaining
after the match. -/
structure Tok where
  ws1 : List Char
  name : List Char
  key : List Char
  ws2 : List Char
  rest : List Char

/-- Try to match the template regex at the head of `cs`. -/
def matchToken (cs : List Char) : Option Tok :=
  match dropLit [lbrace, lbrace] cs with
  | none => none
  | some r0 =>
    let ws1 := r0.takeWhile isSpaceChar
    let r1 := r0.dropWhile isSpaceChar
    match dropLit stepsDot r1 with
    | none => none
    | some r2 =>
      let nm := r2.takeWhile isWordChar
      if nm.isEmpty then none
      else
        let r3 := r2.dropWhile isWordChar
        match dropLit outputDot r3 with
        | none => none
        | some r4 =>
          let ky := r4.takeWhile isWordChar
          if ky.isEmpty then none
          else
            let r5 := r4.dropWhile isWordChar
            let ws2 := r5.takeWhile isSpaceChar
            let r6 := r5.dropWhile isSpaceChar
            match dropLit [rbrace, rbrace] r6 with
            | none => none
            | some r7 => some ⟨ws1, nm, ky, ws2, r7⟩

/-- The text a match consumed (`match.group(0)`). -/
def group0 (tk : Tok) : List Char :=
  [lbrace, lbrace] ++ tk.ws1 ++ stepsDot ++ tk.name ++ outputDot
    ++ tk.key ++ tk.ws2 ++ [rbrace, rbrace]

/-- Step outputs for a run: step name to output object. -/
abbrev SOMap := List (String × List (String × JValue))

/-- The value a token refers to: `step_outputs.get(step_name, {}).get(key)`. -/
def getValue (M : SOMap) (name key : String) : Option JValue :=
  dictGet ((dictGet M name).getD []) key

/-- The replacement `_replace` computes for a non-null value:
`json.dumps` for composite values, `str` for scalars. -/
def pyRender : JValue → String
  | .arr l => jsonDumps (.arr l)
  | .obj l => jsonDumps (.obj l)
  | .str s => s
  | .bool true => "True"
  | .bool false => "False"
  | .num n => toString n
  | .null => "None"

/-- One scan step of `re.sub`: at each position try the pattern; on a match
emit the replacement (`group(0)` itself for an unresolved reference) and
resume after the match, otherwise copy one character.  `fuel ≥ cs.length`
makes the fuel-exhaustion branch unreachable: every step consumes at least
one input character. -/
def resolveAux (M : SOMap) : Nat → List Char → List Char
  | _, [] => []
  | 0, cs => cs
  | fuel + 1, c :: cs =>
    match matchToken (c :: cs) with
    | none => c :: resolveAux M fuel cs
    | some tk =>
      match getValue M (String.mk tk.name) (String.mk tk.key) with
      | some v =>
        if v.isNull then group0 tk ++ resolveAux M fuel tk.rest
        else (pyRender v).toList ++ resolveAux M fuel tk.rest
      | none => group0 tk ++ resolveAux M fuel tk.rest

/-- Embedding of `scheduler.resolve_templates`. -/
def resolve_templates (text : String) (step_outputs : SOMap) : String :=
  String.mk (resolveAux step_outputs text.toList.length text.toList)

/-- Scan exactly like `resolveAux` but only report whether some position
matches the pattern with a resolvable (present, non-null) reference, i.e.
whether a second `re.sub` pass would substitute anything. -/
def hasResolvableToken (M : SOMap) : Nat → List Char → Bool
  | _, [] => false
  | 0, _ => false
  | fuel + 1, c :: cs =>
    match matchToken (c :: cs) with
    | none => hasResolvableToken M fuel cs
    | some tk =>
      match getValue M (String.mk tk.name) (String.mk tk.key) with
      | some v => if v.isNull then hasResolvableToken M fuel tk.rest else true
      | none => hasResolvableToken M fuel tk.rest

/-! ### DAG validation and topological sort (`scheduler._build_graph`,
`scheduler.topological_sort`) -/

/-- A pipeline step definition.  `depends_on` models
`step.get("depends_on", [])` and `on_failure` the optional
`"on_failure"` key (`step_def.get("on_failure", "stop")`). -/
structure Step where
  name : String
  task : String
  depends_on : List String
  on_failure : Option String

/-- Single quote character, used to build error message text. -/
def sq : Char := Char.ofNat 39

/-- Wrap a string in single quotes. -/
def quoteS (s : String) : String :=
  String.mk [sq] ++ s ++ String.mk [sq]

/-- The `ValueError` text for an unknown dependency. -/
def unknownDepMsg (stepName dep : String) : String :=
  "Step " ++ quoteS stepName ++ " depends on unknown step " ++ quoteS dep

/-- The `ValueError` text for a cyclic graph. -/
def cycleMsg : String := "Pipeline contains a cycle — cannot schedule"

/-- In-order dict `{s["name"]: [] for s in steps}`. -/
def initAdj (steps : List Step) : List (String × List String) :=
  steps.foldl (fun d s => dictSet d s.name []) []

/-- In-order dict `{s["name"]: 0 for s in steps}` (Python ints, so `Int`). -/
def initIndeg (steps : List Step) : List (String × Int) :=
  steps.foldl (fun d s => dictSet d s.name 0) []

/-- State built by `_build_graph`: adjacency and in-degree dicts. -/
abbrev GraphSt := List (String × List String) × List (String × Int)

/-- Record one dependency edge: `adjacency[dep].append(name)` and
`in_degree[name] += 1` (both keys are known to be present). -/
def addEdge (g : GraphSt) (dep child : String) : GraphSt :=
  (dictSet g.1 dep ((dictGet g.1 dep).getD [] ++ [child]),
   dictSet g.2 child ((dictGet g.2 child).getD 0 + 1))

/-- Inner loop of `_build_graph` over one step's `depends_on` list. -/
def addDeps (names : List String) (child : String) :
    List String → GraphSt → Except String GraphSt
  | [], g => .ok g
  | dep :: ds, g =>
    if dep ∈ names then addDeps names child ds (addEdge g dep child)
    else .error (unknownDepMsg child dep)

/-- Outer loop of `_build_graph` over the steps. -/
def buildEdges (names : List String) : List Step → GraphSt → Except String GraphSt
  | [], g => .ok g
  | s :: rest, g =>
    match addDeps names s.name s.depends_on g with
    | .error e => .error e
    | .ok g2 => buildEdges names rest g2

/-- Embedding of `scheduler._build_graph`. -/
def _build_graph (steps : List Step) : Except String GraphSt :=
  buildEdges (steps.map Step.name) steps (initAdj steps, initIndeg steps)

/-- Decrement a child's in-degree; enqueue it when the degree reaches 0
(`in_degree[child] -= 1; if in_degree[child] == 0: next_queue.append`). -/
def decChild (st : List (String × Int) × List String) (child : String) :
    List (String × Int) × List String :=
  match dictGet st.1 child with
  | none => st
  | some v =>
    (dictSet st.1 child (v - 1), if v - 1 = 0 then st.2 ++ [child] else st.2)

/-- Process one dequeued name: walk its adjacency children. -/
def processName (adj : List (String × List String))
    (st : List (String × Int) × List String) (name : String) :
    List (String × Int) × List String :=
  ((dictGet adj name).getD []).foldl decChild st

/-- Process one whole layer, returning the updated in-degrees and the next
queue. -/
def processLayer (adj : List (String × List String)) (layer : List String)
    (indeg : List (String × Int)) : List (String × Int) × List String :=
  layer.foldl (processName adj) (indeg, [])

/-- The `while queue:` loop of Kahn's algorithm, producing the layers and
the `visited` counter.  `fuel` bounds the number of iterations; with
`fuel > ` (number of keys of positive in-degree) the fuel-exhaustion
branch is unreachable, because every non-final iteration strictly
decreases that count. -/
def kahnLoop (adj : List (String × List String)) :
    Nat → List String → List (String × Int) → List (List String) × Nat
  | 0, _, _ => ([], 0)
  | fuel + 1, queue, indeg =>
    if queue.isEmpty then ([], 0)
    else
      let p := processLayer adj queue indeg
      let r := kahnLoop adj fuel p.2 p.1
      (queue :: r.1, queue.length + r.2)

/-- Embedding of `scheduler.topological_sort`. -/
def topological_sort (steps : List Step) : Except String (List (List String)) :=
  match _build_graph steps with
  | .error e => .error e
  | .ok g =>
    let queue := (g.2.filter (fun p => p.2 = 0)).map Prod.fst
    let r := kahnLoop g.1 (g.2.length + 1) queue g.2
    if r.2 = g.2.length then .ok r.1 else .error cycleMsg

/-- All dependency edges `(parent, child)` of a step list, in build order
and with multiplicity. -/
def edgeList (steps : List Step) : List (String × String) :=
  steps.flatMap (fun s => s.depends_on.map (fun d => (d, s.name)))

/-- The dependency relation: `p` is a dependency of `c`. -/
def EdgeRel (steps : List Step) (p c : String) : Prop :=
  (p, c) ∈ edgeList steps

/-- The dependency graph contains a (nonempty) cycle. -/
def HasCycle (steps : List Step) : Prop :=
  ∃ x, Relation.TransGen (EdgeRel steps) x x

/-- Python string slicing `s[:n]` (by characters). -/
def pyTrunc (s : String) (n : Nat) : String :=
  String.mk (s.toList.take n)

/-! ### Job engines (`api.run_agent_task`, `api.run_pipeline_step`)

The attempt loop is driven by an oracle `excs : Nat → Option String`
giving, for each attempt number, either `none` (the attempt succeeds:
auth, clone and the agent all return) or `some e` (some part of the
attempt raises an exception whose text is `e`).  The loop records, per
failing non-final attempt, the `retrying` update and the back-off sleep,
and produces the terminal job-record write plus the function's result
(return value or propagated exception). -/

/-- `api.MAX_ATTEMPTS`. -/
def MAX_ATTEMPTS : Nat := 3

/-- `api.RETRY_BASE_DELAY` (seconds). -/
def RETRY_BASE_DELAY : Nat := 10

/-- One `retrying` update: the fields of the `update_job` call plus the
back-off sleep that follows it. -/
structure RetryRec where
  attempt : Nat
  error : String
  sleep : Nat
deriving DecidableEq

/-- The terminal `update_job` write of an engine run. -/
structure FinalRec where
  status : String
  attempt : Nat
  error : Option String
  completedAtSet : Bool
deriving DecidableEq

/-- Aggregate error text of `run_agent_task`. -/
def aggErrAgent (errorMsg : String) : String :=
  "All " ++ toString MAX_ATTEMPTS ++ " attempts failed. Last error: " ++ errorMsg

/-- Aggregate error text of `run_pipeline_step` (note: no `error` word). -/
def aggErrStep (errorMsg : String) : String :=
  "All " ++ toString MAX_ATTEMPTS ++ " attempts failed. Last: " ++ errorMsg

/-- The attempt loop of `run_agent_task`, from attempt `a`.  `fuel` bounds
the recursion; `fuel = MAX_ATTEMPTS` is enough from `a = 1` because the
loop only continues while `a < MAX_ATTEMPTS`, so the fuel-exhaustion
branch (status `"unreachable"`) is never taken. -/
def agentLoop (excs : Nat → Option String) :
    Nat → Nat → List RetryRec × FinalRec × Except String Unit
  | _, 0 => ([], ⟨"unreachable", 0, none, false⟩, .ok ())
  | a, fuel + 1 =>
    match excs a with
    | none => ([], ⟨"completed", a, none, true⟩, .ok ())
    | some e =>
      if a < MAX_ATTEMPTS then
        let r := agentLoop excs (a + 1) fuel
        (⟨a, pyTrunc e 500, RETRY_BASE_DELAY * 2 ^ (a - 1)⟩ :: r.1, r.2)
      else
        ([], ⟨"failed", a, some (aggErrAgent (pyTrunc e 500)), true⟩, .error e)

/-- The attempt loop of `run_pipeline_step` (same shape as `agentLoop`;
on success it returns the step output `out`, and its aggregate error text
differs). -/
def stepLoop (excs : Nat → Option String) (out : List (String × JValue)) :
    Nat → Nat → List RetryRec × FinalRec × Except String (List (String × JValue))
  | _, 0 => ([], ⟨"unreachable", 0, none, false⟩, .error "unreachable")
  | a, fuel + 1 =>
    match excs a with
    | none => ([], ⟨"completed", a, none, true⟩, .ok out)
    | some e =>
      if a < MAX_ATTEMPTS then
        let r := stepLoop excs out (a + 1) fuel
        (⟨a, pyTrunc e 500, RETRY_BASE_DELAY * 2 ^ (a - 1)⟩ :: r.1, r.2)
      else
        ([], ⟨"failed", a, some (aggErrStep (pyTrunc e 500)), true⟩, .error e)

/-- A full `run_agent_task` execution (attempts 1 to `MAX_ATTEMPTS`). -/
def run_agent_task (excs : Nat → Option String) :
    List RetryRec × FinalRec × Except String Unit :=
  agentLoop excs 1 MAX_ATTEMPTS

/-- A full `run_pipeline_step` execution. -/
def run_pipeline_step (excs : Nat → Option String) (out : List (String × JValue)) :
    List RetryRec × FinalRec × Except String (List (String × JValue)) :=
  stepLoop excs out 1 MAX_ATTEMPTS

/-- The sequence of `status` values written for a `run_agent_task` job:
`queued` at creation, `running` on entry, one `retrying` per failing
non-final attempt, then the terminal status.  No other `update_job` call
in the loop names `status`. -/
def agentStatusTrace (excs : Nat → Option String) : List String :=
  "queued" :: "running" ::
    ((run_agent_task excs).1.map (fun _ => "retrying")
      ++ [(run_agent_task excs).2.1.status])

/-- The sequence of `status` values written for a `run_pipeline_step` job. -/
def stepStatusTrace (excs : Nat → Option String) : List String :=
  "queued" :: "running" ::
    ((run_pipeline_step excs []).1.map (fun _ => "retrying")
      ++ [(run_pipeline_step excs []).2.1.status])

/-! ### Pipeline orchestrator (`api.run_pipeline_task`,
`api._execute_pipeline_steps`)

The per-step behaviour is driven by oracles
`stepExcs : String → Nat → Option String` (the per-attempt exception
oracle of the step's `run_pipeline_step` worker) and
`stepOuts : String → List (String × JValue)` (the step output the agent
produces when the step succeeds). -/

/-- The observable fields of a step's job record that the orchestrator
reads or writes. -/
structure JobRec where
  status : String
  error : Option String
  completedAt : Bool
deriving DecidableEq

/-- A job record as `create_job` leaves it. -/
def queuedRec : JobRec := ⟨"queued", none, false⟩

/-- The skip-marking write
`update_job(jid, status="failed", error="Skipped: upstream step failed",
completed_at=now)`. -/
def skipRec : JobRec := ⟨"failed", some "Skipped: upstream step failed", true⟩

/-- The terminal job record a step worker leaves behind. -/
def finToJobRec (f : FinalRec) : JobRec := ⟨f.status, f.error, f.completedAtSet⟩

/-- Run state as the orchestrator sees it. -/
structure ExecState where
  jobs : List (String × JobRec)
  outputs : SOMap
  runStatus : String
  runError : Option String
  runCompletedAt : Bool
  failed : Bool

/-- Dispatch one step worker: the job record it leaves and its result. -/
def callStep (stepExcs : String → Nat → Option String)
    (stepOuts : String → List (String × JValue)) (name : String) :
    JobRec × Except String (List (String × JValue)) :=
  let r := run_pipeline_step (stepExcs name) (stepOuts name)
  (finToJobRec r.2.1, r.2.2)

/-- Run error text `Step '<name>' failed: <error>`. -/
def stepFailMsg (name err : String) : String :=
  "Step " ++ quoteS name ++ " failed: " ++ err

/-- The `except` branch of the per-step dispatch: record the error output,
and on `on_failure == "stop"` set the failed flag, store the run error and
signal the `break` (second component `true`). -/
def stepExcEffect (st : ExecState) (name onFailure e : String) :
    ExecState × Bool :=
  let st2 := { st with
    outputs := dictSet st.outputs name [("error", JValue.str (pyTrunc e 500))] }
  if onFailure = "stop" then
    ({ st2 with
        failed := true
        runError := some (stepFailMsg name (pyTrunc e 500)) }, true)
  else (st2, false)

/-- Look up a step definition by name (`step_map[step_name]`; the names
come from the layering of the same list, so the default is dead). -/
def findStep (steps : List Step) (name : String) : Step :=
  (steps.find? (fun s => s.name = name)).getD ⟨name, "", [], none⟩

/-- The `for step_name in layer:` loop with its `break` on a stop-policy
failure.  The resolved task is computed exactly as in the source (it is
passed to the worker and does not otherwise affect control flow). -/
def runStepsInLayer (steps : List Step) (stepExcs : String → Nat → Option String)
    (stepOuts : String → List (String × JValue)) :
    List String → ExecState → ExecState
  | [], st => st
  | name :: rest, st =>
    let sd := findStep steps name
    let _resolvedTask := resolve_templates sd.task st.outputs
    let onFailure := sd.on_failure.getD "stop"
    let c := callStep stepExcs stepOuts name
    let st1 := { st with jobs := dictSet st.jobs name c.1 }
    match c.2 with
    | .ok out =>
      let recorded := if out.isEmpty then [("exit_code", JValue.num 0)] else out
      let st2 := { st1 with outputs := dictSet st1.outputs name recorded }
      if c.1.status = "failed" then
        -- `raise RuntimeError(updated_job.get("error", "Step failed"))`;
        -- dead in fact: a normal worker return wrote status "completed".
        let eff := stepExcEffect st2 name onFailure (c.1.error.getD "Step failed")
        if eff.2 then eff.1 else runStepsInLayer steps stepExcs stepOuts rest eff.1
      else runStepsInLayer steps stepExcs stepOuts rest st2
    | .error e =>
      let eff := stepExcEffect st1 name onFailure e
      if eff.2 then eff.1 else runStepsInLayer steps stepExcs stepOuts rest eff.1

/-- Mark every job of a skipped layer failed. -/
def skipMarkLayer (layer : List String) (st : ExecState) : ExecState :=
  { st with jobs := layer.foldl (fun js n => dictSet js n skipRec) st.jobs }

/-- The `for layer in layers:` loop. -/
def runLayers (steps : List Step) (stepExcs : String → Nat → Option String)
    (stepOuts : String → List (String × JValue)) :
    List (List String) → ExecState → ExecState
  | [], st => st
  | layer :: rest, st =>
    if st.failed then
      runLayers steps stepExcs stepOuts rest (skipMarkLayer layer st)
    else
      runLayers steps stepExcs stepOuts rest
        (runStepsInLayer steps stepExcs stepOuts layer st)

/-- The job records `_execute_pipeline_steps` creates, one per step. -/
def initJobs (steps : List Step) : List (String × JobRec) :=
  steps.foldl (fun js s => dictSet js s.name queuedRec) []

/-- Embedding of `api._execute_pipeline_steps`.  The run is set running
first; a `topological_sort` failure then propagates as an exception. -/
def _execute_pipeline_steps (steps : List Step)
    (stepExcs : String → Nat → Option String)
    (stepOuts : String → List (String × JValue)) : Except String ExecState :=
  match topological_sort steps with
  | .error e => .error e
  | .ok layers =>
    let st0 : ExecState :=
      ⟨initJobs steps, [], "running", none, false, false⟩
    let st1 := runLayers steps stepExcs stepOuts layers st0
    .ok { st1 with
      runStatus := if st1.failed then "failed" else "completed"
      runCompletedAt := true }

/-- Embedding of `api.run_pipeline_task`: the catch-all guard around
`_execute_pipeline_steps`.  Returns the final run state and the re-raised
exception, if any.  (On the exception path no job records exist yet: the
only exception source in the model, `topological_sort`, fires before they
are created.) -/
def run_pipeline_task (steps : List Step)
    (stepExcs : String → Nat → Option String)
    (stepOuts : String → List (String × JValue)) : ExecState × Option String :=
  match _execute_pipeline_steps steps stepExcs stepOuts with
  | .ok st => (st, none)
  | .error e =>
    (⟨[], [], "failed", some ("Pipeline crashed: " ++ pyTrunc e 500), true, false⟩,
     some e)

/-- Predicate for "this step, if dispatched, fails and has stop policy":
the `find?` form of the first stop-failure search. -/
def stopFailPred (steps : List Step) (stepExcs : String → Nat → Option String)
    (stepOuts : String → List (String × JValue)) (name : String) : Bool :=
  (match (callStep stepExcs stepOuts name).2 with
   | .error _ => true
   | .ok _ => false)
  && ((findStep steps name).on_failure.getD "stop" = "stop")

/-- First step in a layer that fails with stop policy. -/
def layerStopFail (steps : List Step) (stepExcs : String → Nat → Option String)
    (stepOuts : String → List (String × JValue)) (layer : List String) :
    Option String :=
  layer.find? (stopFailPred steps stepExcs stepOuts)

/-- Position (layer index, step name) of the first stop-policy failure the
orchestrator hits, if any. -/
def firstStopFail (steps : List Step) (stepExcs : String → Nat → Option String)
    (stepOuts : String → List (String × JValue)) :
    List (List String) → Option (Nat × String)
  | [] => none
  | layer :: rest =>
    match layerStopFail steps stepExcs stepOuts layer with
    | some n => some (0, n)
    | none =>
      match firstStopFail steps stepExcs stepOuts rest with
      | some r => some (r.1 + 1, r.2)
      | none => none

/-! ### Store (`models.update_job`, `models.get_job`, `models._row_to_dict`)

A `jobs` row is a function from columns to stored values.  The JSON text
columns are modelled as holding the decoded value itself
(`json.loads (json.dumps v) = v` on the data the engines store), so
serialisation is the identity; what is modelled exactly is which columns
an `update_job` call rewrites and how `_row_to_dict` renames them. -/

/-- The columns of the `jobs` table. -/
inductive Col : Type where
  | job_id | pipeline_id | run_id | batch_id | step_name | step_index
  | status | repo_url | task | submitted_by | submitted_at | started_at
  | completed_at | result_json | step_output_json | error | logs_json
  | attempt | max_attempts | created_at | updated_at
deriving DecidableEq

/-- A stored column value (`NULL`, text, integer, or decoded JSON). -/
inductive Val : Type where
  | null : Val
  | s : String → Val
  | i : Int → Val
  | j : JValue → Val

/-- A `jobs` row. -/
def Row : Type := Col → Val

/-- Column of a SQL column name (an unknown name in the `SET` clause would
raise an `OperationalError`; the claims only use real columns). -/
def colOfName : String → Option Col
  | "job_id" => some .job_id
  | "pipeline_id" => some .pipeline_id
  | "run_id" => some .run_id
  | "batch_id" => some .batch_id
  | "step_name" => some .step_name
  | "step_index" => some .step_index
  | "status" => some .status
  | "repo_url" => some .repo_url
  | "task" => some .task
  | "submitted_by" => some .submitted_by
  | "submitted_at" => some .submitted_at
  | "started_at" => some .started_at
  | "completed_at" => some .completed_at
  | "result_json" => some .result_json
  | "step_output_json" => some .step_output_json
  | "error" => some .error
  | "logs_json" => some .logs_json
  | "attempt" => some .attempt
  | "max_attempts" => some .max_attempts
  | "created_at" => some .created_at
  | "updated_at" => some .updated_at
  | _ => none

/-- Rewrite one column of a row. -/
def setCol (r : Row) (c : Col) (v : Val) : Row :=
  fun c2 => if c2 = c then v else r c2

/-- The kwarg renaming at the top of `update_job`: `result` is stored as
`result_json`, `logs` as `logs_json`, `step_output` as
`step_output_json` (each via `json.dumps`, modelled as identity). -/
def renameField (p : String × Val) : String × Val :=
  if p.1 = "result" then ("result_json", p.2)
  else if p.1 = "logs" then ("logs_json", p.2)
  else if p.1 = "step_output" then ("step_output_json", p.2)
  else p

/-- The full field list an `update_job(**fields)` call writes:
the renamed caller fields, with `updated_at` unconditionally set to the
current time (overwriting a caller-supplied `updated_at`). -/
def update_job_fields (fields : List (String × Val)) (now : String) :
    List (String × Val) :=
  (fields.map renameField).filter (fun p => p.1 ≠ "updated_at")
    ++ [("updated_at", Val.s now)]

/-- Apply a `SET` list to a row. -/
def applyFields (r : Row) (fields : List (String × Val)) : Row :=
  fields.foldl
    (fun r2 p =>
      match colOfName p.1 with
      | some c => setCol r2 c p.2
      | none => r2)
    r

/-- Embedding of `models.update_job` on the addressed row. -/
def update_job (r : Row) (fields : List (String × Val)) (now : String) : Row :=
  applyFields r (update_job_fields fields now)

/-- Embedding of `models.get_job`: the row is returned (as a dict, see
`getField`) only if its primary key equals the requested id. -/
def get_job (id : String) (r : Row) : Option Row :=
  match r Col.job_id with
  | Val.s x => if x = id then some r else none
  | _ => none

/-- Read one key of the dict `_row_to_dict` builds from a row: the JSON
columns are popped and re-exposed under their clean names. -/
def getField (r : Row) (k : String) : Option Val :=
  match k with
  | "result" => some (r Col.result_json)
  | "logs" => some (r Col.logs_json)
  | "step_output" => some (r Col.step_output_json)
  | "result_json" => none
  | "logs_json" => none
  | "step_output_json" => none
  | _ => (colOfName k).map r

/-- The keys of the dict `get_job` returns, i.e. the persisted fields as
the callers of `update_job`/`get_job` name them. -/
def persistedKeys : List String :=
  ["job_id", "pipeline_id", "run_id", "batch_id", "step_name", "step_index",
   "status", "repo_url", "task", "submitted_by", "submitted_at", "started_at",
   "completed_at", "result", "step_output", "error", "logs", "attempt",
   "max_attempts", "created_at", "updated_at"]

/-! ### Status-trace shape checkers (claim C1) -/

/-- Terminal job status. -/
def termStatus (s : String) : Bool :=
  s = "completed" || s = "failed"

/-- Tail of the status shape the claim asserts after `queued, running`:
zero or more `retrying, running` pairs, then a terminal status. -/
def claimTailB : List String → Bool
  | [s] => termStatus s
  | "retrying" :: "running" :: rest => claimTailB rest
  | _ => false

/-- The status-sequence shape asserted by the claim:
`queued → running → (retrying → running)* → (completed | failed)`. -/
def claimShapeB : List String → Bool
  | "queued" :: "running" :: rest => claimTailB rest
  | _ => false

/-- Tail of the status shape the code actually produces after
`queued, running`: zero or more `retrying` writes, then a terminal. -/
def amendedTailB : List String → Bool
  | [s] => termStatus s
  | "retrying" :: rest => amendedTailB rest
  | _ => false

/-- After `queued`: either `running` followed by retries and a terminal,
or the single skip-marking write `failed`. -/
def amendedAfterQueuedB : List String → Bool
  | "running" :: rest => amendedTailB rest
  | ["failed"] => true
  | _ => false

/-- The status-sequence shape the code actually produces. -/
def amendedShapeB : List String → Bool
  | "queued" :: rest => amendedAfterQueuedB rest
  | _ => false

/-- Boolean string-prefix test (used to state "begins with"). -/
def strStarts (s pref : String) : Bool :=
  pref.toList.isPrefixOf s.toList

/-! ### Engine loop lemmas -/

/-- Unfolded aggregate error of `run_agent_task`. -/
theorem aggErrAgent_eq (m : String) :
    aggErrAgent m = "All 3 attempts failed. Last error: " ++ m := by
  show "All " ++ toString MAX_ATTEMPTS ++ " attempts failed. Last error: " ++ m
      = "All 3 attempts failed. Last error: " ++ m
  congr 1

/-- Unfolded aggregate error of `run_pipeline_step`. -/
theorem aggErrStep_eq (m : String) :
    aggErrStep m = "All 3 attempts failed. Last: " ++ m := by
  show "All " ++ toString MAX_ATTEMPTS ++ " attempts failed. Last: " ++ m
      = "All 3 attempts failed. Last: " ++ m
  congr 1

/-- If every attempt from `b` up to a failing attempt `a < MAX_ATTEMPTS`
raises, the retry record of attempt `a` in `agentLoop excs b fuel` stores
the truncated error and the back-off delay `10 * 2 ^ (a - 1)`. -/
theorem agentLoop_retry_get (excs : Nat → Option String) (e : String) :
    ∀ fuel b a, b ≤ a → a < MAX_ATTEMPTS → MAX_ATTEMPTS - b < fuel →
      (∀ i, b ≤ i → i < a → excs i ≠ none) → excs a = some e →
      (agentLoop excs b fuel).1.get? (a - b) =
        some ⟨a, pyTrunc e 500, RETRY_BASE_DELAY * 2 ^ (a - 1)⟩ := by
  intro fuel
  induction fuel with
  | zero => intro b a _ _ h3 _ _; omega
  | succ f ih =>
    intro b a hba ha hfuel hfail he
    by_cases hba2 : b = a
    · subst hba2
      have hlt : b < MAX_ATTEMPTS := ha
      simp [agentLoop, he, hlt]
    · have hblt : b < a := lt_of_le_of_ne hba hba2
      have hbm : b < MAX_ATTEMPTS := lt_trans hblt ha
      obtain ⟨eb, heb⟩ := Option.ne_none_iff_exists'.mp (hfail b le_rfl hblt)
      have hsub : a - b = (a - (b + 1)) + 1 := by omega
      simp only [agentLoop, heb, if_pos hbm, hsub]
      simp only [List.get?_cons_succ]
      exact ih (b + 1) a (by omega) ha (by omega)
        (fun i h1 h2 => hfail i (by omega) h2) he

/-- Same as `agentLoop_retry_get` for the pipeline-step engine. -/
theorem stepLoop_retry_get (excs : Nat → Option String)
    (out : List (String × JValue)) (e : String) :
    ∀ fuel b a, b ≤ a → a < MAX_ATTEMPTS → MAX_ATTEMPTS - b < fuel →
      (∀ i, b ≤ i → i < a → excs i ≠ none) → excs a = some e →
      (stepLoop excs out b fuel).1.get? (a - b) =
        some ⟨a, pyTrunc e 500, RETRY_BASE_DELAY * 2 ^ (a - 1)⟩ := by
  intro fuel
  induction fuel with
  | zero => intro b a _ _ h3 _ _; omega
  | succ f ih =>
    intro b a hba ha hfuel hfail he
    by_cases hba2 : b = a
    · subst hba2
      have hlt : b < MAX_ATTEMPTS := ha
      simp [stepLoop, he, hlt]
    · have hblt : b < a := lt_of_le_of_ne hba hba2
      have hbm : b < MAX_ATTEMPTS := lt_trans hblt ha
      obtain ⟨eb, heb⟩ := Option.ne_none_iff_exists'.mp (hfail b le_rfl hblt)
      have hsub : a - b = (a - (b + 1)) + 1 := by omega
      simp only [stepLoop, heb, if_pos hbm, hsub]
      simp only [List.get?_cons_succ]
      exact ih (b + 1) a (by omega) ha (by omega)
        (fun i h1 h2 => hfail i (by omega) h2) he

/-- If every attempt from `b` to `MAX_ATTEMPTS` raises, the terminal write
of `agentLoop` is the `failed` record with the aggregate error of the last
exception, which is propagated. -/
theorem agentLoop_final_fail (excs : Nat → Option String) (e : String) :
    ∀ fuel b, 1 ≤ b → b ≤ MAX_ATTEMPTS → MAX_ATTEMPTS - b < fuel →
      (∀ i, b ≤ i → i < MAX_ATTEMPTS → excs i ≠ none) →
      excs MAX_ATTEMPTS = some e →
      (agentLoop excs b fuel).2.1 =
          ⟨"failed", MAX_ATTEMPTS, some (aggErrAgent (pyTrunc e 500)), true⟩
        ∧ (agentLoop excs b fuel).2.2 = .error e := by
  intro fuel
  induction fuel with
  | zero => intro b _ _ h3 _ _; omega
  | succ f ih =>
    intro b hb1 hbm hfuel hfail he
    by_cases hbm2 : b = MAX_ATTEMPTS
    · subst hbm2
      simp [agentLoop, he]
    · have hblt : b < MAX_ATTEMPTS := lt_of_le_of_ne hbm hbm2
      obtain ⟨eb, heb⟩ := Option.ne_none_iff_exists'.mp (hfail b le_rfl hblt)
      simp only [agentLoop, heb, if_pos hblt]
      exact ih (b + 1) (by omega) (by omega) (by omega)
        (fun i h1 h2 => hfail i (by omega) h2) he

/-- Same as `agentLoop_final_fail` for the pipeline-step engine (note the
different aggregate error text). -/
theorem stepLoop_final_fail (excs : Nat → Option String)
    (out : List (String × JValue)) (e : String) :
    ∀ fuel b, 1 ≤ b → b ≤ MAX_ATTEMPTS → MAX_ATTEMPTS - b < fuel →
      (∀ i, b ≤ i → i < MAX_ATTEMPTS → excs i ≠ none) →
      excs MAX_ATTEMPTS = some e →
      (stepLoop excs out b fuel).2.1 =
          ⟨"failed", MAX_ATTEMPTS, some (aggErrStep (pyTrunc e 500)), true⟩
        ∧ (stepLoop excs out b fuel).2.2 = .error e := by
  intro fuel
  induction fuel with
  | zero => intro b _ _ h3 _ _; omega
  | succ f ih =>
    intro b hb1 hbm hfuel hfail he
    by_cases hbm2 : b = MAX_ATTEMPTS
    · subst hbm2
      simp [stepLoop, he]
    · have hblt : b < MAX_ATTEMPTS := lt_of_le_of_ne hbm hbm2
      obtain ⟨eb, heb⟩ := Option.ne_none_iff_exists'.mp (hfail b le_rfl hblt)
      simp only [stepLoop, heb, if_pos hblt]
      exact ih (b + 1) (by omega) (by omega) (by omega)
        (fun i h1 h2 => hfail i (by omega) h2) he

/-! ### Claim C4 — retry/backoff and terminal failure of the engines -/

/-- C4, counterexample: the claim as stated is false.  When every attempt
of a `run_pipeline_step` job raises (here with text `boom`), the terminal
error is `All 3 attempts failed. Last: boom`, which does not begin with
the claimed prefix `All 3 attempts failed. Last error: `. -/
theorem C4_counterexample :
    (run_pipeline_step (fun _ => some "boom") []).2.1.error
        = some "All 3 attempts failed. Last: boom"
      ∧ strStarts "All 3 attempts failed. Last: boom"
          "All 3 attempts failed. Last error: " = false := by
  constructor
  · decide
  · decide

/-- C4, amended: for every job whose attempt `a` raises (all earlier
attempts having raised too): the stored error is the exception text
truncated to 500 characters; if `a < MAX_ATTEMPTS` the job transitions to
retrying and the engine sleeps `10 * 2 ^ (a - 1)` seconds; if
`a = MAX_ATTEMPTS` the job transitions to failed with
`attempt = MAX_ATTEMPTS` and an error beginning with
`All 3 attempts failed. Last error: ` for `run_agent_task` jobs and with
`All 3 attempts failed. Last: ` for `run_pipeline_step` jobs, and the
last exception is propagated. -/
theorem C4_retry_backoff_and_terminal_failure
    (excs : Nat → Option String) (out : List (String × JValue))
    (a : Nat) (e : String) (h1 : 1 ≤ a) (ha : a ≤ MAX_ATTEMPTS)
    (hprev : ∀ i, 1 ≤ i → i < a → excs i ≠ none) (he : excs a = some e) :
    (a < MAX_ATTEMPTS →
      (run_agent_task excs).1.get? (a - 1) =
          some ⟨a, pyTrunc e 500, RETRY_BASE_DELAY * 2 ^ (a - 1)⟩
        ∧ (run_pipeline_step excs out).1.get? (a - 1) =
          some ⟨a, pyTrunc e 500, RETRY_BASE_DELAY * 2 ^ (a - 1)⟩)
    ∧ (a = MAX_ATTEMPTS →
      (run_agent_task excs).2.1 =
          ⟨"failed", MAX_ATTEMPTS,
            some ("All 3 attempts failed. Last error: " ++ pyTrunc e 500), true⟩
        ∧ (run_agent_task excs).2.2 = .error e
        ∧ (run_pipeline_step excs out).2.1 =
          ⟨"failed", MAX_ATTEMPTS,
            some ("All 3 attempts failed. Last: " ++ pyTrunc e 500), true⟩
        ∧ (run_pipeline_step excs out).2.2 = .error e) := by
  constructor
  · intro hlt
    constructor
    · exact agentLoop_retry_get excs e MAX_ATTEMPTS 1 a h1 hlt (by decide)
        (fun i hi1 hi2 => hprev i hi1 hi2) he
    · exact stepLoop_retry_get excs out e MAX_ATTEMPTS 1 a h1 hlt (by decide)
        (fun i hi1 hi2 => hprev i hi1 hi2) he
  · intro hm
    subst hm
    have hA := agentLoop_final_fail excs e MAX_ATTEMPTS 1 (by decide) (by decide)
      (by decide) (fun i hi1 hi2 => hprev i hi1 hi2) he
    have hS := stepLoop_final_fail excs out e MAX_ATTEMPTS 1 (by decide) (by decide)
      (by decide) (fun i hi1 hi2 => hprev i hi1 hi2) he
    refine ⟨?_, hA.2, ?_, hS.2⟩
    · rw [show (run_agent_task excs).2.1 = (agentLoop excs 1 MAX_ATTEMPTS).2.1 from rfl,
        hA.1, aggErrAgent_eq]
    · rw [show (run_pipeline_step excs out).2.1 = (stepLoop excs out 1 MAX_ATTEMPTS).2.1 from rfl,
        hS.1, aggErrStep_eq]

/-- C4, witness: the amended theorem applied at the all-failing oracle
with attempt 3, and at attempt 1 for the retry branch. -/
theorem C4_witness :
    (run_agent_task (fun _ => some "boom")).2.1 =
        ⟨"failed", MAX_ATTEMPTS,
          some ("All 3 attempts failed. Last error: " ++ pyTrunc "boom" 500), true⟩
      ∧ (run_pipeline_step (fun _ => some "boom") []).1.get? 0 =
        some ⟨1, pyTrunc "boom" 500, RETRY_BASE_DELAY * 2 ^ (1 - 1)⟩ := by
  constructor
  · exact ((C4_retry_backoff_and_terminal_failure (fun _ => some "boom") [] 3 "boom"
      (by decide) (by decide) (fun i _ _ => by simp) rfl).2 rfl).1
  · exact ((C4_retry_backoff_and_terminal_failure (fun _ => some "boom") [] 1 "boom"
      (by decide) (by decide) (fun i h1 h2 => absurd (lt_of_le_of_lt h1 h2) (by decide)) rfl).1
      (by decide)).2

/-- A `retrying` write never changes whether the remaining tail is
well-shaped. -/
theorem amendedTailB_retrying (rest : List String) :
    amendedTailB ("retrying" :: rest) = amendedTailB rest := by
  cases rest with
  | nil => decide
  | cons y t => rfl

/-- The status writes of the `run_agent_task` attempt loop are some
`retrying` writes followed by one terminal write. -/
theorem agentTail_shape (excs : Nat → Option String) :
    ∀ fuel b, 1 ≤ b → MAX_ATTEMPTS - b < fuel →
      amendedTailB ((agentLoop excs b fuel).1.map (fun _ => "retrying")
        ++ [(agentLoop excs b fuel).2.1.status]) = true := by
  intro fuel
  induction fuel with
  | zero => intro b _ h; omega
  | succ f ih =>
    intro b hb hfuel
    cases hb2 : excs b with
    | none =>
      simp only [agentLoop, hb2]
      decide
    | some e =>
      by_cases hlt : b < MAX_ATTEMPTS
      · simp only [agentLoop, hb2, if_pos hlt, List.map_cons, List.cons_append]
        rw [amendedTailB_retrying]
        exact ih (b + 1) (by omega) (by omega)
      · simp only [agentLoop, hb2, if_neg hlt]
        decide

/-- Same as `agentTail_shape` for the pipeline-step engine. -/
theorem stepTail_shape (excs : Nat → Option String) (out : List (String × JValue)) :
    ∀ fuel b, 1 ≤ b → MAX_ATTEMPTS - b < fuel →
      amendedTailB ((stepLoop excs out b fuel).1.map (fun _ => "retrying")
        ++ [(stepLoop excs out b fuel).2.1.status]) = true := by
  intro fuel
  induction fuel with
  | zero => intro b _ h; omega
  | succ f ih =>
    intro b hb hfuel
    cases hb2 : excs b with
    | none =>
      simp only [stepLoop, hb2]
      decide
    | some e =>
      by_cases hlt : b < MAX_ATTEMPTS
      · simp only [stepLoop, hb2, if_pos hlt, List.map_cons, List.cons_append]
        rw [amendedTailB_retrying]
        exact ih (b + 1) (by omega) (by omega)
      · simp only [stepLoop, hb2, if_neg hlt]
        decide

/-! ### Claim C1 — shape of the status-write sequence -/

/-- C1, counterexample: the claim as stated is false.  A `run_agent_task`
job whose first attempt fails and whose second succeeds writes the status
sequence `queued, running, retrying, completed`: the terminal is entered
directly from `retrying`, with no `running` write in between, so the
claimed `queued → running → (retrying → running)* → terminal` shape is
violated.  Pipeline skip-marking (`queued, failed`, see `skipRec`)
violates it too. -/
theorem C1_counterexample :
    agentStatusTrace (fun a => if a = 1 then some "boom" else none)
        = ["queued", "running", "retrying", "completed"]
      ∧ claimShapeB ["queued", "running", "retrying", "completed"] = false
      ∧ claimShapeB ["queued", skipRec.status] = false := by
  refine ⟨rfl, by decide, by decide⟩

/-- C1, amended: every status sequence an engine writes for a job has the
shape `queued, running, retrying^k, (completed | failed)` — `queued` is
left only for `running`, each failing non-final attempt writes
`retrying`, the terminal status is written exactly once, at the end
(terminals are sinks) — except for pipeline skip-marking, which writes
`failed` directly after `queued`. -/
theorem C1_status_sequence_shape (excs : Nat → Option String) :
    amendedShapeB (agentStatusTrace excs) = true
      ∧ amendedShapeB (stepStatusTrace excs) = true
      ∧ amendedShapeB ["queued", skipRec.status] = true := by
  refine ⟨?_, ?_, by decide⟩
  · show amendedAfterQueuedB ("running" :: _) = true
    show amendedTailB ((run_agent_task excs).1.map (fun _ => "retrying")
      ++ [(run_agent_task excs).2.1.status]) = true
    exact agentTail_shape excs MAX_ATTEMPTS 1 (by decide) (by decide)
  · show amendedAfterQueuedB ("running" :: _) = true
    show amendedTailB ((run_pipeline_step excs []).1.map (fun _ => "retrying")
      ++ [(run_pipeline_step excs []).2.1.status]) = true
    exact stepTail_shape excs [] MAX_ATTEMPTS 1 (by decide) (by decide)

/-! ### Claim C5 — orchestrator catch-all guard -/

/-- C5: if the orchestrator body raises any exception `e`, the run record
is set to failed with `completed_at` stamped and error
`Pipeline crashed: ` followed by the exception text truncated to 500
characters, and the exception is re-raised; if the body returns, its
final run status is terminal.  Consequently no terminating orchestrator
leaves its run with status `running`. -/
theorem C5_pipeline_crash_guard (steps : List Step)
    (stepExcs : String → Nat → Option String)
    (stepOuts : String → List (String × JValue)) :
    (∀ e, _execute_pipeline_steps steps stepExcs stepOuts = .error e →
      run_pipeline_task steps stepExcs stepOuts =
        (⟨[], [], "failed", some ("Pipeline crashed: " ++ pyTrunc e 500),
          true, false⟩, some e))
    ∧ (∀ st, _execute_pipeline_steps steps stepExcs stepOuts = .ok st →
        run_pipeline_task steps stepExcs stepOuts = (st, none)
          ∧ (st.runStatus = "completed" ∨ st.runStatus = "failed"))
    ∧ (run_pipeline_task steps stepExcs stepOuts).1.runStatus ≠ "running" := by
  have hok : ∀ st, _execute_pipeline_steps steps stepExcs stepOuts = .ok st →
      st.runStatus = "completed" ∨ st.runStatus = "failed" := by
    intro st hst
    unfold _execute_pipeline_steps at hst
    split at hst
    · exact absurd hst (by simp)
    · rename_i layers heq
      rw [Except.ok.injEq] at hst
      subst hst
      by_cases hf : (runLayers steps stepExcs stepOuts layers
          ⟨initJobs steps, [], "running", none, false, false⟩).failed
      · right
        simp [hf]
      · left
        simp [hf]
  refine ⟨?_, ?_, ?_⟩
  · intro e he
    simp [run_pipeline_task, he]
  · intro st hst
    exact ⟨by simp [run_pipeline_task, hst], hok st hst⟩
  · cases h : _execute_pipeline_steps steps stepExcs stepOuts with
    | error e =>
      simp [run_pipeline_task, h]
    | ok st =>
      have := hok st h
      simp only [run_pipeline_task, h]
      rcases this with h1 | h1 <;> simp [h1]

/-- C5, witness: the guard theorem applied to a concrete cyclic pipeline,
whose body raises the cycle error before creating any job record. -/
theorem C5_witness :
    run_pipeline_task
        [⟨"a", "t", ["b"], none⟩, ⟨"b", "t", ["a"], none⟩]
        (fun _ _ => none) (fun _ => []) =
      (⟨[], [], "failed", some ("Pipeline crashed: " ++ pyTrunc cycleMsg 500),
        true, false⟩, some cycleMsg) :=
  (C5_pipeline_crash_guard _ _ _).1 cycleMsg rfl

/-! ### Claim C8 — `update_job` is a partial update -/

/-- Applying a renamed single-field `SET` list (plus the `updated_at`
refresh) to a row rewrites exactly the addressed column and `updated_at`. -/
theorem applyPair_char (r : Row) (n : String) (v : Val) (now : String) (c : Col) :
    applyFields r (([(n, v)].filter (fun p => p.1 ≠ "updated_at"))
        ++ [("updated_at", Val.s now)]) c =
      if c = Col.updated_at then Val.s now
      else if colOfName n = some c then v
      else r c := by
  by_cases hn : n = "updated_at"
  · subst hn
    show setCol r Col.updated_at (Val.s now) c = _
    unfold setCol
    by_cases hc : c = Col.updated_at
    · rw [if_pos hc, if_pos hc]
    · rw [if_neg hc, if_neg hc,
        if_neg (show ¬ colOfName "updated_at" = some c from
          fun h => hc (Option.some.inj h).symm)]
  · have hfil : [(n, v)].filter (fun p => p.1 ≠ "updated_at") = [(n, v)] := by
      simp [List.filter_cons, hn]
    rw [hfil]
    show applyFields (match colOfName n with
      | some c0 => setCol r c0 v
      | none => r) [("updated_at", Val.s now)] c = _
    cases hco : colOfName n with
    | none =>
      show setCol r Col.updated_at (Val.s now) c = _
      unfold setCol
      by_cases hc : c = Col.updated_at
      · rw [if_pos hc, if_pos hc]
      · rw [if_neg hc, if_neg hc, if_neg (by simp)]
    | some c0 =>
      show setCol (setCol r c0 v) Col.updated_at (Val.s now) c = _
      unfold setCol
      by_cases hc : c = Col.updated_at
      · rw [if_pos hc, if_pos hc]
      · rw [if_neg hc, if_neg hc]
        by_cases hcc : c = c0
        · rw [if_pos hcc, if_pos (by rw [hcc])]
        · rw [if_neg hcc,
            if_neg (show ¬ some c0 = some c from
              fun h => hcc (Option.some.inj h).symm)]

/-- Characterisation of a single-field `update_job` call: the row is
unchanged except at the written column and at `updated_at`. -/
theorem update_job_char (r : Row) (k : String) (v : Val) (now : String) (c : Col) :
    update_job r [(k, v)] now c =
      if c = Col.updated_at then Val.s now
      else if colOfName (renameField (k, v)).1 = some c then v
      else r c := by
  have h2 : (renameField (k, v)).2 = v := by
    unfold renameField
    split_ifs <;> rfl
  rcases hp : renameField (k, v) with ⟨n, w⟩
  have hw : w = v := by rw [← h2, hp]
  subst hw
  have hrw : update_job r [(k, w)] now =
      applyFields r (([(n, w)].filter
        (fun p => p.1 ≠ "updated_at")) ++ [("updated_at", Val.s now)]) := by
    unfold update_job update_job_fields
    rw [List.map_cons, List.map_nil, hp]
  rw [hrw, applyPair_char]

/-- A sample row keyed `j1`. -/
def sampleRow : Row := fun c =>
  match c with
  | Col.job_id => Val.s "j1"
  | _ => Val.null

/-- C8, counterexample: the claim as stated is false for two persisted
fields.  Writing `updated_at` is overwritten by the refresh (`get_job`
then yields the refresh time, not the written value), and writing
`job_id` rekeys the row, so `get_job` under the old id finds nothing. -/
theorem C8_counterexample :
    (getField (update_job sampleRow [("updated_at", Val.s "X")] "NOW") "updated_at"
        = some (Val.s "NOW")
      ∧ some (Val.s "NOW") ≠ some (Val.s "X"))
    ∧ get_job "j1" (update_job sampleRow [("job_id", Val.s "j2")] "NOW") = none := by
  refine ⟨⟨rfl, ?_⟩, rfl⟩
  simp only [ne_eq, Option.some.injEq, Val.s.injEq]
  decide

/-- C8, amended: for every persisted field `k` other than `job_id` (which
rekeys the row) and `updated_at` (which the refresh overwrites),
`update_job(id, k=v)` followed by `get_job(id)` yields `v` for `k`;
`update_job` is partial: it rewrites only the named field and refreshes
`updated_at`, leaving every other column of the record unchanged. -/
theorem C8_partial_update_roundtrip_and_frame (k : String) (hk : k ∈ persistedKeys)
    (hk1 : k ≠ "job_id") (hk2 : k ≠ "updated_at")
    (r : Row) (v : Val) (now : String) :
    getField (update_job r [(k, v)] now) k = some v
      ∧ getField (update_job r [(k, v)] now) "updated_at" = some (Val.s now)
      ∧ ∀ c : Col, c ≠ Col.updated_at → some c ≠ colOfName (renameField (k, v)).1 →
          update_job r [(k, v)] now c = r c := by
  have frame : ∀ c : Col, c ≠ Col.updated_at →
      some c ≠ colOfName (renameField (k, v)).1 →
      update_job r [(k, v)] now c = r c := by
    intro c h2 h1
    rw [update_job_char, if_neg h2, if_neg (fun h => h1 (Eq.symm h))]
  simp only [persistedKeys, List.mem_cons, List.not_mem_nil, or_false] at hk
  rcases hk with rfl | rfl | rfl | rfl | rfl | rfl | rfl | rfl | rfl | rfl | rfl
    | rfl | rfl | rfl | rfl | rfl | rfl | rfl | rfl | rfl | rfl
  case _ => exact absurd rfl hk1
  all_goals first
    | exact absurd rfl hk2
    | exact ⟨rfl, rfl, frame⟩

/-- C8, witness: the amended theorem applied at the field `status`. -/
theorem C8_witness :
    getField (update_job sampleRow [("status", Val.s "running")] "NOW") "status"
      = some (Val.s "running") :=
  (C8_partial_update_roundtrip_and_frame "status" (by simp [persistedKeys])
    (by decide) (by decide) sampleRow (Val.s "running") "NOW").1

/-! ### Scanner lemmas (claims C6, C7, C10) -/

/-- A successful `dropLit` means the input starts with the literal. -/
theorem dropLit_eq : ∀ (p cs r : List Char), dropLit p cs = some r → cs = p ++ r := by
  intro p
  induction p with
  | nil =>
    intro cs r h
    unfold dropLit at h
    rw [Option.some.injEq] at h
    rw [h, List.nil_append]
  | cons a ps ih =>
    intro cs r h
    cases cs with
    | nil => exact absurd h (by simp [dropLit])
    | cons c cs2 =>
      unfold dropLit at h
      by_cases hc : c = a
      · rw [if_pos hc] at h
        rw [hc, List.cons_append, ← ih cs2 r h]
      · rw [if_neg hc] at h
        exact absurd h (by simp)

/-- `dropLit` strips an actual prefix. -/
theorem dropLit_pre : ∀ (p r : List Char), dropLit p (p ++ r) = some r := by
  intro p
  induction p with
  | nil => intro r; rfl
  | cons a ps ih => intro r; simp [dropLit, ih]

/-- The head of the list does not satisfy `p` (trivially for `[]`). -/
def headNot (p : Char → Bool) : List Char → Prop
  | [] => True
  | c :: _ => p c = false

/-- Splitting `takeWhile`/`dropWhile` at a run boundary. -/
theorem takeWhile_split (p : Char → Bool) :
    ∀ (w rest : List Char), w.all p = true → headNot p rest →
      (w ++ rest).takeWhile p = w ∧ (w ++ rest).dropWhile p = rest := by
  intro w
  induction w with
  | nil =>
    intro rest _ hr
    cases rest with
    | nil => exact ⟨rfl, rfl⟩
    | cons c t =>
      have hc : p c = false := hr
      simp [List.takeWhile_cons, List.dropWhile_cons, hc]
  | cons c w ih =>
    intro rest hall hr
    rw [List.all_cons, Bool.and_eq_true] at hall
    have := ih rest hall.2 hr
    simp [List.takeWhile_cons, List.dropWhile_cons, hall.1, this.1, this.2]

/-- Everything `takeWhile` keeps satisfies the predicate. -/
theorem all_takeWhile (p : Char → Bool) : ∀ l : List Char, (l.takeWhile p).all p = true := by
  intro l
  induction l with
  | nil => rfl
  | cons c t ih =>
    by_cases hc : p c = true
    · simp [List.takeWhile_cons, hc, ih]
    · simp [List.takeWhile_cons, Bool.eq_false_iff.mpr hc]

/-- ASCII whitespace is never a word character. -/
theorem isSpace_not_word (c : Char) (h : isSpaceChar c = true) : isWordChar c = false := by
  simp only [isSpaceChar, Bool.or_eq_true, decide_eq_true_eq] at h
  rcases h with ((((h | h) | h) | h) | h) | h <;> subst h <;> decide

/-- The full text of one template token. -/
def tokenChars (ws1 nm ky ws2 : List Char) : List Char :=
  [lbrace, lbrace] ++ ws1 ++ stepsDot ++ nm ++ outputDot ++ ky ++ ws2 ++ [rbrace, rbrace]

/-- The scanner matches a well-formed token at the head of the input,
capturing exactly its name and key. -/
theorem matchToken_token (ws1 nm ky ws2 rest0 : List Char)
    (h1 : ws1.all isSpaceChar = true) (h2 : ws2.all isSpaceChar = true)
    (h3 : nm ≠ []) (h4 : nm.all isWordChar = true)
    (h5 : ky ≠ []) (h6 : ky.all isWordChar = true) :
    matchToken (tokenChars ws1 nm ky ws2 ++ rest0) = some ⟨ws1, nm, ky, ws2, rest0⟩ := by
  have hd1 : dropLit [lbrace, lbrace] (tokenChars ws1 nm ky ws2 ++ rest0)
      = some (ws1 ++ (stepsDot ++ nm ++ outputDot ++ ky ++ ws2 ++ [rbrace, rbrace] ++ rest0)) := by
    unfold tokenChars
    simp only [List.append_assoc]
    exact dropLit_pre _ _
  have hsp1 : headNot isSpaceChar
      (stepsDot ++ nm ++ outputDot ++ ky ++ ws2 ++ [rbrace, rbrace] ++ rest0) := by
    simp only [stepsDot, List.append_assoc]
    exact (by decide : isSpaceChar 's' = false)
  have hws1 := takeWhile_split isSpaceChar ws1
    (stepsDot ++ nm ++ outputDot ++ ky ++ ws2 ++ [rbrace, rbrace] ++ rest0) h1 hsp1
  have hd2 : dropLit stepsDot
      (stepsDot ++ nm ++ outputDot ++ ky ++ ws2 ++ [rbrace, rbrace] ++ rest0)
      = some (nm ++ (outputDot ++ ky ++ ws2 ++ [rbrace, rbrace] ++ rest0)) := by
    simp only [List.append_assoc]
    exact dropLit_pre _ _
  have hwd1 : headNot isWordChar (outputDot ++ ky ++ ws2 ++ [rbrace, rbrace] ++ rest0) := by
    simp only [outputDot, List.append_assoc]
    exact (by decide : isWordChar '.' = false)
  have hnm := takeWhile_split isWordChar nm
    (outputDot ++ ky ++ ws2 ++ [rbrace, rbrace] ++ rest0) h4 hwd1
  have hd3 : dropLit outputDot (outputDot ++ ky ++ ws2 ++ [rbrace, rbrace] ++ rest0)
      = some (ky ++ (ws2 ++ [rbrace, rbrace] ++ rest0)) := by
    simp only [List.append_assoc]
    exact dropLit_pre _ _
  have hwd2 : headNot isWordChar (ws2 ++ [rbrace, rbrace] ++ rest0) := by
    cases hw : ws2 with
    | nil =>
      simp only [List.nil_append, List.cons_append]
      exact (by decide : isWordChar (Char.ofNat 125) = false)
    | cons c t =>
      have hc : isSpaceChar c = true := by
        rw [hw] at h2
        rw [List.all_cons, Bool.and_eq_true] at h2
        exact h2.1
      simp only [List.cons_append]
      exact isSpace_not_word c hc
  have hky := takeWhile_split isWordChar ky (ws2 ++ [rbrace, rbrace] ++ rest0) h6 hwd2
  have hsp2 : headNot isSpaceChar ([rbrace, rbrace] ++ rest0) := by
    simp only [List.cons_append]
    exact (by decide : isSpaceChar (Char.ofNat 125) = false)
  have hws2 := takeWhile_split isSpaceChar ws2 ([rbrace, rbrace] ++ rest0) h2 hsp2
  have hd4 : dropLit [rbrace, rbrace] ([rbrace, rbrace] ++ rest0) = some rest0 :=
    dropLit_pre _ _
  have hnm2 : nm.isEmpty = false := by
    cases nm with
    | nil => exact absurd rfl h3
    | cons c t => rfl
  have hky2 : ky.isEmpty = false := by
    cases ky with
    | nil => exact absurd rfl h5
    | cons c t => rfl
  unfold matchToken
  simp only [List.append_assoc] at hws1 hnm hky hws2 hd1 hd2 hd3 hd4
  simp only [hd1, hws1.1, hws1.2, hd2, hnm.1, hnm2, hnm.2, hd3, hky.1, hky2,
    hky.2, hws2.1, hws2.2, hd4, Bool.false_eq_true, if_false]

/-- A token as captured re-assembles to exactly the text it consumed. -/
theorem matchToken_group0 (cs : List Char) (tk : Tok) (h : matchToken cs = some tk) :
    group0 tk ++ tk.rest = cs := by
  unfold matchToken at h
  cases hd0 : dropLit [lbrace, lbrace] cs with
  | none => rw [hd0] at h; exact absurd h (by simp)
  | some r0 =>
    rw [hd0] at h
    dsimp only [] at h
    cases hd2 : dropLit stepsDot (r0.dropWhile isSpaceChar) with
    | none => rw [hd2] at h; exact absurd h (by simp)
    | some r2 =>
      rw [hd2] at h
      dsimp only [] at h
      by_cases hnm : (r2.takeWhile isWordChar).isEmpty = true
      · rw [if_pos hnm] at h; exact absurd h (by simp)
      · rw [if_neg hnm] at h
        cases hd3 : dropLit outputDot (r2.dropWhile isWordChar) with
        | none => rw [hd3] at h; exact absurd h (by simp)
        | some r4 =>
          rw [hd3] at h
          dsimp only [] at h
          by_cases hky : (r4.takeWhile isWordChar).isEmpty = true
          · rw [if_pos hky] at h; exact absurd h (by simp)
          · rw [if_neg hky] at h
            cases hd4 : dropLit [rbrace, rbrace]
                ((r4.dropWhile isWordChar).dropWhile isSpaceChar) with
            | none => rw [hd4] at h; exact absurd h (by simp)
            | some r7 =>
              rw [hd4] at h
              dsimp only [] at h
              rw [Option.some.injEq] at h
              subst h
              have e0 : cs = [lbrace, lbrace] ++ r0 := dropLit_eq _ _ _ hd0
              have e1 : r0.takeWhile isSpaceChar ++ r0.dropWhile isSpaceChar = r0 :=
                List.takeWhile_append_dropWhile _ _
              have e2 : r0.dropWhile isSpaceChar = stepsDot ++ r2 := dropLit_eq _ _ _ hd2
              have e3 : r2.takeWhile isWordChar ++ r2.dropWhile isWordChar = r2 :=
                List.takeWhile_append_dropWhile _ _
              have e4 : r2.dropWhile isWordChar = outputDot ++ r4 := dropLit_eq _ _ _ hd3
              have e5 : r4.takeWhile isWordChar ++ r4.dropWhile isWordChar = r4 :=
                List.takeWhile_append_dropWhile _ _
              have e6 : (r4.dropWhile isWordChar).takeWhile isSpaceChar
                  ++ (r4.dropWhile isWordChar).dropWhile isSpaceChar
                  = r4.dropWhile isWordChar :=
                List.takeWhile_append_dropWhile _ _
              have e7 : (r4.dropWhile isWordChar).dropWhile isSpaceChar
                  = [rbrace, rbrace] ++ r7 := dropLit_eq _ _ _ hd4
              simp only [group0, List.append_assoc]
              conv_rhs => rw [e0, ← e1, e2, ← e3, e4, ← e5, ← e6, e7]

/-- A match consumes at least the two leading braces, so the remaining
input is strictly shorter. -/
theorem matchToken_rest_lt (cs : List Char) (tk : Tok) (h : matchToken cs = some tk) :
    tk.rest.length < cs.length := by
  have hg := matchToken_group0 cs tk h
  have : (group0 tk ++ tk.rest).length = cs.length := by rw [hg]
  rw [List.length_append] at this
  have hlen : 2 ≤ (group0 tk).length := by
    simp [group0, List.length_append]
  omega

/-- Scanning an empty input yields nothing, whatever the fuel. -/
theorem resolveAux_nil (M : SOMap) (fuel : Nat) : resolveAux M fuel [] = [] := by
  cases fuel <;> rfl

/-- One unfolding of `resolveAux` at a matching position. -/
theorem resolveAux_of_match (M : SOMap) (cs : List Char) (tk : Tok) (fuel : Nat)
    (hm : matchToken cs = some tk) (hne : cs ≠ []) :
    resolveAux M (fuel + 1) cs =
      (match getValue M (String.mk tk.name) (String.mk tk.key) with
       | some v =>
         if v.isNull then group0 tk ++ resolveAux M fuel tk.rest
         else (pyRender v).toList ++ resolveAux M fuel tk.rest
       | none => group0 tk ++ resolveAux M fuel tk.rest) := by
  cases cs with
  | nil => exact absurd rfl hne
  | cons c t =>
    show (match matchToken (c :: t) with
      | none => c :: resolveAux M fuel t
      | some tk =>
        match getValue M (String.mk tk.name) (String.mk tk.key) with
        | some v =>
          if v.isNull then group0 tk ++ resolveAux M fuel tk.rest
          else (pyRender v).toList ++ resolveAux M fuel tk.rest
        | none => group0 tk ++ resolveAux M fuel tk.rest) = _
    rw [hm]

/-- If no position of `cs` carries a resolvable token, the scan copies the
input unchanged (unresolved matches re-emit their own text). -/
theorem resolveAux_id_of_noResolvable (M : SOMap) :
    ∀ fuel cs, cs.length ≤ fuel → hasResolvableToken M fuel cs = false →
      resolveAux M fuel cs = cs := by
  intro fuel
  induction fuel with
  | zero =>
    intro cs hlen _
    cases cs with
    | nil => rfl
    | cons c t => simp at hlen
  | succ f ih =>
    intro cs hlen h
    cases cs with
    | nil => rfl
    | cons c t =>
      have h2 : (match matchToken (c :: t) with
        | none => hasResolvableToken M f t
        | some tk =>
          match getValue M (String.mk tk.name) (String.mk tk.key) with
          | some v => if v.isNull then hasResolvableToken M f tk.rest else true
          | none => hasResolvableToken M f tk.rest) = false := h
      show (match matchToken (c :: t) with
        | none => c :: resolveAux M f t
        | some tk =>
          match getValue M (String.mk tk.name) (String.mk tk.key) with
          | some v =>
            if v.isNull then group0 tk ++ resolveAux M f tk.rest
            else (pyRender v).toList ++ resolveAux M f tk.rest
          | none => group0 tk ++ resolveAux M f tk.rest) = c :: t
      cases hm : matchToken (c :: t) with
      | none =>
        rw [hm] at h2
        dsimp only [] at h2 ⊢
        rw [ih t (by simpa using Nat.le_of_succ_le_succ (by simpa using hlen)) h2]
      | some tk =>
        rw [hm] at h2
        dsimp only [] at h2 ⊢
        have hrest : tk.rest.length ≤ f := by
          have hlt := matchToken_rest_lt (c :: t) tk hm
          simp only [List.length_cons] at hlt hlen
          omega
        cases hv : getValue M (String.mk tk.name) (String.mk tk.key) with
        | none =>
          rw [hv] at h2
          dsimp only [] at h2 ⊢
          rw [ih tk.rest hrest h2]
          exact matchToken_group0 _ _ hm
        | some v =>
          rw [hv] at h2
          dsimp only [] at h2 ⊢
          cases hnull : v.isNull with
          | false =>
            rw [hnull] at h2
            simp only [Bool.false_eq_true, if_false] at h2
            exact absurd h2 (by simp)
          | true =>
            rw [hnull] at h2
            simp only [if_true] at h2 ⊢
            rw [ih tk.rest hrest h2]
            exact matchToken_group0 _ _ hm

/-! ### Claim C7 — idempotence of `resolve_templates` -/

/-- C7, counterexample: the claim as stated is false.  When a substituted
value itself spells a template token, a second application substitutes
again: with outputs `a.k = "{{steps.a.output.j}}"` and `a.j = "X"`, one
application of `resolve_templates` yields the token text, and a second
application yields `X`. -/
theorem C7_counterexample :
    resolve_templates "\x7b\x7bsteps.a.output.k\x7d\x7d"
        [("a", [("k", JValue.str "\x7b\x7bsteps.a.output.j\x7d\x7d"),
                ("j", JValue.str "X")])]
      = "\x7b\x7bsteps.a.output.j\x7d\x7d"
    ∧ resolve_templates
        (resolve_templates "\x7b\x7bsteps.a.output.k\x7d\x7d"
          [("a", [("k", JValue.str "\x7b\x7bsteps.a.output.j\x7d\x7d"),
                  ("j", JValue.str "X")])])
        [("a", [("k", JValue.str "\x7b\x7bsteps.a.output.j\x7d\x7d"),
                ("j", JValue.str "X")])]
      = "X"
    ∧ ("X" : String) ≠ "\x7b\x7bsteps.a.output.j\x7d\x7d" := by
  refine ⟨rfl, rfl, by decide⟩

/-- C7, amended: applying `resolve_templates` twice equals applying it
once whenever the once-resolved string contains no remaining resolvable
token (a token whose step exists and whose key is non-null); in general a
second application can substitute tokens introduced by the first. -/
theorem C7_resolve_templates_conditional_idempotence (T : String) (M : SOMap)
    (h : hasResolvableToken M (resolve_templates T M).toList.length
      (resolve_templates T M).toList = false) :
    resolve_templates (resolve_templates T M) M = resolve_templates T M := by
  show String.mk (resolveAux M (resolve_templates T M).toList.length
    (resolve_templates T M).toList) = resolve_templates T M
  rw [resolveAux_id_of_noResolvable M _ _ le_rfl h]
  rfl

/-- C7, witness: the amended idempotence applied to a template whose only
token refers to an unknown step, hence stays unresolvable. -/
theorem C7_witness :
    resolve_templates
        (resolve_templates "see \x7b\x7bsteps.b.output.k\x7d\x7d"
          [("a", [("k", JValue.str "v")])])
        [("a", [("k", JValue.str "v")])]
      = resolve_templates "see \x7b\x7bsteps.b.output.k\x7d\x7d"
          [("a", [("k", JValue.str "v")])] :=
  C7_resolve_templates_conditional_idempotence
    "see \x7b\x7bsteps.b.output.k\x7d\x7d" [("a", [("k", JValue.str "v")])]
    (by decide)

/-! ### Claim C6 — substitution rules of `resolve_templates` -/

/-- Evaluation of `resolve_templates` on one well-formed token: a
resolvable reference becomes its rendered value, an unknown step, missing
key or null value leaves the token literally in place. -/
theorem resolve_templates_token (M : SOMap) (ws1 nm ky ws2 : List Char)
    (h1 : ws1.all isSpaceChar = true) (h2 : ws2.all isSpaceChar = true)
    (h3 : nm ≠ []) (h4 : nm.all isWordChar = true)
    (h5 : ky ≠ []) (h6 : ky.all isWordChar = true) :
    resolve_templates (String.mk (tokenChars ws1 nm ky ws2)) M =
      match getValue M (String.mk nm) (String.mk ky) with
      | some v =>
        if v.isNull then String.mk (tokenChars ws1 nm ky ws2) else pyRender v
      | none => String.mk (tokenChars ws1 nm ky ws2) := by
  have hm := matchToken_token ws1 nm ky ws2 [] h1 h2 h3 h4 h5 h6
  rw [List.append_nil] at hm
  have hne : tokenChars ws1 nm ky ws2 ≠ [] := by
    intro hc
    have : (tokenChars ws1 nm ky ws2).length = 0 := by rw [hc]; rfl
    simp [tokenChars, List.length_append] at this
  show String.mk (resolveAux M (tokenChars ws1 nm ky ws2).length
    (tokenChars ws1 nm ky ws2)) = _
  have hlen : ∃ f, (tokenChars ws1 nm ky ws2).length = f + 1 := by
    cases hl : (tokenChars ws1 nm ky ws2).length with
    | zero => exact absurd (List.length_eq_zero.mp hl) hne
    | succ f => exact ⟨f, rfl⟩
  obtain ⟨f, hf⟩ := hlen
  rw [hf, resolveAux_of_match M _ _ f hm hne]
  have hgr : group0 ⟨ws1, nm, ky, ws2, []⟩ = tokenChars ws1 nm ky ws2 := by
    simp [group0, tokenChars]
  cases hv : getValue M (String.mk nm) (String.mk ky) with
  | none =>
    dsimp only []
    rw [resolveAux_nil, List.append_nil, hgr]
  | some v =>
    dsimp only []
    cases hnull : v.isNull with
    | true =>
      simp only [if_true]
      rw [resolveAux_nil, List.append_nil, hgr]
    | false =>
      simp only [Bool.false_eq_true, if_false]
      rw [resolveAux_nil, List.append_nil]
      rfl

/-- C6: `resolve_templates` replaces each well-formed token
`{{ steps.NAME.output.KEY }}` (whitespace around the dot path tolerated)
whose step exists and whose key is non-null — strings keep their lexical
form, numbers and booleans their Python `str` form, objects and arrays
their JSON text — and leaves a token with an unknown step or missing or
null key literally in place; in particular the specification's example
resolves as stated. -/
theorem C6_substitution_rules :
    (∀ (ws1 ws2 nm ky : List Char) (M : SOMap),
      ws1.all isSpaceChar = true → ws2.all isSpaceChar = true →
      nm ≠ [] → nm.all isWordChar = true → ky ≠ [] → ky.all isWordChar = true →
      resolve_templates (String.mk (tokenChars ws1 nm ky ws2)) M =
        match getValue M (String.mk nm) (String.mk ky) with
        | some v =>
          if v.isNull then String.mk (tokenChars ws1 nm ky ws2) else pyRender v
        | none => String.mk (tokenChars ws1 nm ky ws2))
    ∧ pyRender (JValue.str "U") = "U"
    ∧ pyRender (JValue.num 3) = "3"
    ∧ pyRender (JValue.num (-2)) = "-2"
    ∧ pyRender (JValue.bool true) = "True"
    ∧ pyRender (JValue.bool false) = "False"
    ∧ pyRender (JValue.obj [("x", JValue.num 1), ("y", JValue.str "z")])
        = "\x7b\"x\": 1, \"y\": \"z\"\x7d"
    ∧ pyRender (JValue.arr [JValue.num 1, JValue.num 2]) = "[1, 2]"
    ∧ resolve_templates
        "See \x7b\x7b steps.a.output.pr_url \x7d\x7d (\x7b\x7bsteps.a.output.count\x7d\x7d) \x7b\x7bsteps.a.output.missing\x7d\x7d"
        [("a", [("pr_url", JValue.str "U"), ("count", JValue.num 3)])]
      = "See U (3) \x7b\x7bsteps.a.output.missing\x7d\x7d" := by
  refine ⟨?_, rfl, rfl, rfl, rfl, rfl, rfl, rfl, by decide⟩
  intro ws1 ws2 nm ky M h1 h2 h3 h4 h5 h6
  exact resolve_templates_token M ws1 nm ky ws2 h1 h2 h3 h4 h5 h6

/-- C6, witness: the substitution theorem applied to the concrete token
`{{ steps.a.output.k }}` under a map binding `a.k` to the string `v`. -/
theorem C6_witness :
    resolve_templates (String.mk (tokenChars [' '] ("a".toList) ("k".toList) [' ']))
        [("a", [("k", JValue.str "v")])] =
      match getValue [("a", [("k", JValue.str "v")])] (String.mk "a".toList)
        (String.mk "k".toList) with
      | some v =>
        if v.isNull then String.mk (tokenChars [' '] ("a".toList) ("k".toList) [' '])
        else pyRender v
      | none => String.mk (tokenChars [' '] ("a".toList) ("k".toList) [' ']) :=
  C6_substitution_rules.1 [' '] [' '] ("a".toList) ("k".toList)
    [("a", [("k", JValue.str "v")])]
    (by decide) (by decide) (by decide) (by decide) (by decide) (by decide)

/-! ### Claim C10 — only word-character names and keys are substituted -/

/-- C10: every token the scanner matches — hence every token
`resolve_templates` ever substitutes — captures a nonempty step name and
key made of word characters only; a token whose name or key contains any
other character fails to match and is left in the output unchanged, even
when the output map holds a matching entry, as the concrete dash and dot
instances show. -/
theorem C10_word_chars_only :
    (∀ (cs : List Char) (tk : Tok), matchToken cs = some tk →
      tk.name.all isWordChar = true ∧ tk.key.all isWordChar = true
        ∧ tk.name ≠ [] ∧ tk.key ≠ [])
    ∧ resolve_templates "x \x7b\x7bsteps.a-b.output.k\x7d\x7d y"
        [("a-b", [("k", JValue.str "v")])] = "x \x7b\x7bsteps.a-b.output.k\x7d\x7d y"
    ∧ resolve_templates "x \x7b\x7bsteps.a.output.k.l\x7d\x7d y"
        [("a", [("k.l", JValue.str "v")])] = "x \x7b\x7bsteps.a.output.k.l\x7d\x7d y" := by
  refine ⟨?_, by decide, by decide⟩
  intro cs tk h
  unfold matchToken at h
  cases hd0 : dropLit [lbrace, lbrace] cs with
  | none => rw [hd0] at h; exact absurd h (by simp)
  | some r0 =>
    rw [hd0] at h
    dsimp only [] at h
    cases hd2 : dropLit stepsDot (r0.dropWhile isSpaceChar) with
    | none => rw [hd2] at h; exact absurd h (by simp)
    | some r2 =>
      rw [hd2] at h
      dsimp only [] at h
      by_cases hnm : (r2.takeWhile isWordChar).isEmpty = true
      · rw [if_pos hnm] at h; exact absurd h (by simp)
      · rw [if_neg hnm] at h
        cases hd3 : dropLit outputDot (r2.dropWhile isWordChar) with
        | none => rw [hd3] at h; exact absurd h (by simp)
        | some r4 =>
          rw [hd3] at h
          dsimp only [] at h
          by_cases hky : (r4.takeWhile isWordChar).isEmpty = true
          · rw [if_pos hky] at h; exact absurd h (by simp)
          · rw [if_neg hky] at h
            cases hd4 : dropLit [rbrace, rbrace]
                ((r4.dropWhile isWordChar).dropWhile isSpaceChar) with
            | none => rw [hd4] at h; exact absurd h (by simp)
            | some r7 =>
              rw [hd4] at h
              dsimp only [] at h
              rw [Option.some.injEq] at h
              subst h
              refine ⟨all_takeWhile _ _, all_takeWhile _ _, ?_, ?_⟩
              · intro hc
                dsimp only [] at hc
                rw [hc] at hnm
                exact hnm rfl
              · intro hc
                dsimp only [] at hc
                rw [hc] at hky
                exact hky rfl

/-- C10, witness: the capture-discipline conjunct applied to a concrete
matching token. -/
theorem C10_witness :
    ("a".toList.all isWordChar = true ∧ "k".toList.all isWordChar = true
      ∧ "a".toList ≠ [] ∧ "k".toList ≠ []) :=
  C10_word_chars_only.1 ("\x7b\x7bsteps.a.output.k\x7d\x7d".toList)
    ⟨[], "a".toList, "k".toList, [], []⟩ (by rfl)

/-! ### Dictionary lemmas (claims C2, C3, C9) -/

theorem dictGet_nil {α : Type} (k : String) : dictGet ([] : List (String × α)) k = none :=
  rfl

theorem dictGet_cons {α : Type} (p : String × α) (ps : List (String × α)) (k : String) :
    dictGet (p :: ps) k = if p.1 = k then some p.2 else dictGet ps k := by
  simp only [dictGet, List.find?]
  cases hd : decide (p.1 = k) with
  | true => rw [if_pos (of_decide_eq_true hd)]; rfl
  | false => rw [if_neg (of_decide_eq_false hd)]

theorem dictGet_set_self {α : Type} (d : List (String × α)) (k : String) (v : α) :
    dictGet (dictSet d k v) k = some v := by
  induction d with
  | nil => simp [dictSet, dictGet_cons]
  | cons p ps ih =>
    by_cases hp : p.1 = k
    · simp [dictSet, hp, dictGet_cons]
    · simp only [dictSet, if_neg hp]
      rw [dictGet_cons, if_neg hp]
      exact ih

theorem dictGet_set_other {α : Type} (d : List (String × α)) (k k2 : String) (v : α)
    (h : k2 ≠ k) : dictGet (dictSet d k v) k2 = dictGet d k2 := by
  induction d with
  | nil =>
    simp only [dictSet]
    rw [dictGet_cons, if_neg (fun hc : k = k2 => h hc.symm)]
  | cons p ps ih =>
    by_cases hp : p.1 = k
    · simp only [dictSet, if_pos hp]
      rw [dictGet_cons, dictGet_cons, if_neg (fun hc : k = k2 => h hc.symm),
        if_neg (show ¬p.1 = k2 from fun hc => h (hp.symm.trans hc).symm)]
    · simp only [dictSet, if_neg hp]
      rw [dictGet_cons, dictGet_cons, ih]

theorem dictKeys_set {α : Type} (d : List (String × α)) (k : String) (v : α) :
    dictKeys (dictSet d k v) = if k ∈ dictKeys d then dictKeys d else dictKeys d ++ [k] := by
  induction d with
  | nil => simp [dictSet, dictKeys]
  | cons p ps ih =>
    by_cases hp : p.1 = k
    · simp [dictSet, hp, dictKeys]
    · simp only [dictSet, if_neg hp]
      show p.1 :: dictKeys (dictSet ps k v) = _
      rw [ih]
      simp only [dictKeys, List.map_cons]
      by_cases hm : k ∈ List.map Prod.fst ps
      · rw [if_pos hm, if_pos (List.mem_cons_of_mem _ hm)]
      · rw [if_neg hm, if_neg (show k ∉ p.1 :: List.map Prod.fst ps from by
          intro hc
          rcases List.mem_cons.mp hc with h1 | h1
          · exact hp h1.symm
          · exact hm h1)]
        rw [List.cons_append]

theorem dictGet_mem_keys {α : Type} (d : List (String × α)) (k : String) :
    dictGet d k ≠ none ↔ k ∈ dictKeys d := by
  induction d with
  | nil => simp [dictGet_nil, dictKeys]
  | cons p ps ih =>
    rw [dictGet_cons]
    simp only [dictKeys, List.map_cons, List.mem_cons]
    by_cases hp : p.1 = k
    · simp [hp]
    · rw [if_neg hp]
      simp only [dictKeys] at ih
      rw [ih]
      constructor
      · intro h; right; exact h
      · rintro (h | h)
        · exact absurd h.symm hp
        · exact h

theorem mem_dictGet {α : Type} (d : List (String × α)) (k : String) (v : α)
    (hnd : (dictKeys d).Nodup) : (k, v) ∈ d ↔ dictGet d k = some v := by
  induction d with
  | nil => simp [dictGet_nil]
  | cons p ps ih =>
    simp only [dictKeys, List.map_cons, List.nodup_cons] at hnd
    rw [dictGet_cons]
    simp only [List.mem_cons]
    by_cases hp : p.1 = k
    · rw [if_pos hp]
      constructor
      · rintro (h | h)
        · rw [Option.some.injEq]
          exact (congrArg Prod.snd h).symm
        · exact absurd (List.mem_map.mpr ⟨(k, v), h, hp.symm⟩ : p.1 ∈ List.map Prod.fst ps)
            hnd.1
      · intro h
        rw [Option.some.injEq] at h
        left
        exact Prod.ext hp.symm h.symm
    · rw [if_neg hp]
      have ih2 := ih hnd.2
      simp only [dictKeys] at ih2
      rw [← ih2]
      constructor
      · rintro (h | h)
        · exact absurd (congrArg Prod.fst h).symm hp
        · exact h
      · intro h; right; exact h

/-- A duplicate-free list included in another duplicate-free list is no
longer than it. -/
theorem nodup_subset_length {l l2 : List String} (h1 : l.Nodup) (h2 : l2.Nodup)
    (h : ∀ x ∈ l, x ∈ l2) : l.length ≤ l2.length := by
  have hsub : l.toFinset ⊆ l2.toFinset := by
    intro x hx
    rw [List.mem_toFinset] at hx ⊢
    exact h x hx
  have := Finset.card_le_card hsub
  rwa [List.toFinset_card_of_nodup h1, List.toFinset_card_of_nodup h2] at this

/-- Splitting a count over a pointwise disjoint union of predicates. -/
theorem countP_split {α : Type} (l : List α) (f g h : α → Bool)
    (hfgh : ∀ a, f a = (g a || h a)) (hdis : ∀ a, ¬(g a = true ∧ h a = true)) :
    l.countP f = l.countP g + l.countP h := by
  induction l with
  | nil => simp
  | cons a t ih =>
    rw [List.countP_cons, List.countP_cons, List.countP_cons, ih]
    cases hg : g a with
    | true =>
      have hh : h a = false := by
        cases hh2 : h a with
        | true => exact absurd ⟨hg, hh2⟩ (hdis a)
        | false => rfl
      rw [hfgh a, hg, hh]
      simp
      omega
    | false =>
      rw [hfgh a, hg]
      cases hh : h a <;> simp <;> omega

/-! ### Characterisation of `_build_graph` (claim C2) -/

theorem mem_dictKeys_set {α : Type} (d : List (String × α)) (k0 k : String) (v : α) :
    k ∈ dictKeys (dictSet d k0 v) ↔ k = k0 ∨ k ∈ dictKeys d := by
  rw [dictKeys_set]
  by_cases hm : k0 ∈ dictKeys d
  · rw [if_pos hm]
    constructor
    · intro h; right; exact h
    · rintro (h | h)
      · rw [h]; exact hm
      · exact h
  · rw [if_neg hm, List.mem_append, List.mem_singleton]
    constructor
    · rintro (h | h)
      · right; exact h
      · left; exact h
    · rintro (h | h)
      · right; exact h
      · left; exact h

theorem nodup_dictKeys_set {α : Type} (d : List (String × α)) (k0 : String) (v : α)
    (h : (dictKeys d).Nodup) : (dictKeys (dictSet d k0 v)).Nodup := by
  rw [dictKeys_set]
  by_cases hm : k0 ∈ dictKeys d
  · rw [if_pos hm]; exact h
  · rw [if_neg hm]
    exact List.Nodup.append h (List.nodup_singleton k0)
      (by intro x hx hx2; rw [List.mem_singleton] at hx2; exact hm (hx2 ▸ hx))

/-- Lookup in an init fold `{s.name: v0 for s in steps}`. -/
theorem foldInit_get {α : Type} (v0 : α) :
    ∀ (steps : List Step) (d : List (String × α)) (k : String),
      dictGet (steps.foldl (fun d2 s => dictSet d2 s.name v0) d) k =
        if k ∈ steps.map Step.name then some v0 else dictGet d k := by
  intro steps
  induction steps with
  | nil => intro d k; simp
  | cons s rest ih =>
    intro d k
    rw [List.foldl_cons, ih]
    simp only [List.map_cons, List.mem_cons]
    by_cases hr : k ∈ rest.map Step.name
    · rw [if_pos hr, if_pos (Or.inr hr)]
    · rw [if_neg hr]
      by_cases hk : k = s.name
      · rw [if_pos (Or.inl hk), hk, dictGet_set_self]
      · rw [if_neg (by rintro (h | h); exacts [hk h, hr h]),
          dictGet_set_other _ _ _ _ hk]

theorem foldInit_keys_mem {α : Type} (v0 : α) :
    ∀ (steps : List Step) (d : List (String × α)) (k : String),
      k ∈ dictKeys (steps.foldl (fun d2 s => dictSet d2 s.name v0) d) ↔
        k ∈ steps.map Step.name ∨ k ∈ dictKeys d := by
  intro steps
  induction steps with
  | nil => intro d k; simp
  | cons s rest ih =>
    intro d k
    rw [List.foldl_cons, ih, mem_dictKeys_set]
    simp only [List.map_cons, List.mem_cons]
    constructor
    · rintro (h | h | h)
      · left; right; exact h
      · left; left; exact h
      · right; exact h
    · rintro ((h | h) | h)
      · right; left; exact h
      · left; exact h
      · right; right; exact h

theorem foldInit_keys_nodup {α : Type} (v0 : α) :
    ∀ (steps : List Step) (d : List (String × α)),
      (dictKeys d).Nodup →
      (dictKeys (steps.foldl (fun d2 s => dictSet d2 s.name v0) d)).Nodup := by
  intro steps
  induction steps with
  | nil => intro d h; exact h
  | cons s rest ih =>
    intro d h
    rw [List.foldl_cons]
    exact ih _ (nodup_dictKeys_set _ _ _ h)

/-- Number of unprocessed-parent edges into `k` (in-degree relative to the
processed set `P`). -/
def indegCnt (steps : List Step) (P : List String) (k : String) : Nat :=
  (edgeList steps).countP (fun e => decide (e.2 = k) && decide (e.1 ∉ P))

/-- Invariant of the `_build_graph` fold after processing the edge prefix
`EP`. -/
structure BuildInv (names : List String) (EP : List (String × String))
    (g : GraphSt) : Prop where
  keysA : ∀ k, k ∈ dictKeys g.1 ↔ k ∈ names
  keysI : ∀ k, k ∈ dictKeys g.2 ↔ k ∈ names
  ndA : (dictKeys g.1).Nodup
  ndI : (dictKeys g.2).Nodup
  adjv : ∀ k, k ∈ names → ∃ l, dictGet g.1 k = some l ∧
    ∀ c, l.countP (fun x => decide (x = c)) = EP.countP (fun e => decide (e = (k, c)))
  indegv : ∀ k v, dictGet g.2 k = some v →
    v = (EP.countP (fun e => decide (e.2 = k)) : Int)

/-- Recording one edge preserves the build invariant. -/
theorem addEdge_inv (names : List String) (EP : List (String × String))
    (g : GraphSt) (hinv : BuildInv names EP g) (p c : String)
    (hp : p ∈ names) (hc : c ∈ names) :
    BuildInv names (EP ++ [(p, c)]) (addEdge g p c) := by
  obtain ⟨lp, hlp, hcnt⟩ := hinv.adjv p hp
  have hcv : ∃ v, dictGet g.2 c = some v := by
    cases hv : dictGet g.2 c with
    | none => exact absurd ((hinv.keysI c).mpr hc) (by rw [← dictGet_mem_keys, hv]; simp)
    | some v => exact ⟨v, rfl⟩
  obtain ⟨vc, hvc⟩ := hcv
  constructor
  · intro k
    rw [show (addEdge g p c).1 = dictSet g.1 p ((dictGet g.1 p).getD [] ++ [c]) from rfl,
      mem_dictKeys_set]
    constructor
    · rintro (h | h)
      · rw [h]; exact hp
      · exact (hinv.keysA k).mp h
    · intro h
      right
      exact (hinv.keysA k).mpr h
  · intro k
    rw [show (addEdge g p c).2 = dictSet g.2 c ((dictGet g.2 c).getD 0 + 1) from rfl,
      mem_dictKeys_set]
    constructor
    · rintro (h | h)
      · rw [h]; exact hc
      · exact (hinv.keysI k).mp h
    · intro h
      right
      exact (hinv.keysI k).mpr h
  · exact nodup_dictKeys_set _ _ _ hinv.ndA
  · exact nodup_dictKeys_set _ _ _ hinv.ndI
  · intro k hk
    show ∃ l, dictGet (dictSet g.1 p ((dictGet g.1 p).getD [] ++ [c])) k = some l ∧ _
    by_cases hkp : k = p
    · subst hkp
      refine ⟨lp ++ [c], ?_, ?_⟩
      · rw [hlp]
        show dictGet (dictSet g.1 k (lp ++ [c])) k = _
        exact dictGet_set_self _ _ _
      · intro c2
        rw [List.countP_append, List.countP_append, hcnt c2]
        simp only [List.countP_cons, List.countP_nil]
        by_cases hcc : c = c2
        · subst hcc
          simp
        · rw [show (decide (c = c2)) = false from decide_eq_false hcc,
            show (decide (((k, c) : String × String) = (k, c2))) = false from
              decide_eq_false (by simp [hcc])]
    · obtain ⟨l, hl, hlcnt⟩ := hinv.adjv k hk
      refine ⟨l, ?_, ?_⟩
      · rw [dictGet_set_other _ _ _ _ hkp]
        exact hl
      · intro c2
        rw [List.countP_append, hlcnt c2]
        simp only [List.countP_cons, List.countP_nil]
        rw [show (decide (((p, c) : String × String) = (k, c2))) = false from
          decide_eq_false (fun h2 => hkp (congrArg Prod.fst h2).symm)]
        simp
  · intro k v h
    rw [show (addEdge g p c).2 = dictSet g.2 c ((dictGet g.2 c).getD 0 + 1) from rfl] at h
    rw [List.countP_append]
    simp only [List.countP_cons, List.countP_nil]
    by_cases hkc : k = c
    · rw [hkc] at h ⊢
      rw [dictGet_set_self, Option.some.injEq] at h
      rw [hvc] at h
      simp only [Option.getD_some] at h
      rw [← h, hinv.indegv c vc hvc,
        show (decide (((p, c) : String × String).2 = c)) = true from by simp]
      simp
    · rw [dictGet_set_other _ _ _ _ hkc] at h
      rw [hinv.indegv k v h,
        show (decide (((p, c) : String × String).2 = k)) = false from
          decide_eq_false (fun h2 => hkc h2.symm)]
      simp

theorem addDeps_ok (names : List String) (child : String) (hchild : child ∈ names) :
    ∀ (deps : List String) (EP : List (String × String)) (g : GraphSt),
      BuildInv names EP g → (∀ d ∈ deps, d ∈ names) →
      ∃ g2, addDeps names child deps g = .ok g2 ∧
        BuildInv names (EP ++ deps.map (fun d => (d, child))) g2 := by
  intro deps
  induction deps with
  | nil =>
    intro EP g hinv _
    exact ⟨g, rfl, by simpa using hinv⟩
  | cons d ds ih =>
    intro EP g hinv hdeps
    have hd : d ∈ names := hdeps d (List.mem_cons_self d ds)
    obtain ⟨g2, hg2, hinv2⟩ := ih (EP ++ [(d, child)])
      (addEdge g d child) (addEdge_inv names EP g hinv d child hd hchild)
      (fun x hx => hdeps x (List.mem_cons_of_mem d hx))
    refine ⟨g2, ?_, ?_⟩
    · show addDeps names child (d :: ds) g = .ok g2
      unfold addDeps
      rw [if_pos hd]
      exact hg2
    · rw [List.map_cons]
      rw [List.append_assoc] at hinv2
      simpa using hinv2

theorem addDeps_ok_exists (names : List String) (child : String) :
    ∀ (deps : List String) (g : GraphSt), (∀ d ∈ deps, d ∈ names) →
      ∃ g2, addDeps names child deps g = .ok g2 := by
  intro deps
  induction deps with
  | nil => intro g _; exact ⟨g, rfl⟩
  | cons d ds ih =>
    intro g hdeps
    obtain ⟨g2, hg2⟩ := ih (addEdge g d child)
      (fun x hx => hdeps x (List.mem_cons_of_mem d hx))
    refine ⟨g2, ?_⟩
    unfold addDeps
    rw [if_pos (hdeps d (List.mem_cons_self d ds))]
    exact hg2

theorem addDeps_err (names : List String) (child : String) :
    ∀ (deps : List String) (g : GraphSt), (∃ d ∈ deps, d ∉ names) →
      ∃ d, d ∈ deps ∧ d ∉ names ∧
        addDeps names child deps g = .error (unknownDepMsg child d) := by
  intro deps
  induction deps with
  | nil => intro g h; simp at h
  | cons d ds ih =>
    intro g h
    by_cases hd : d ∈ names
    · have h2 : ∃ x ∈ ds, x ∉ names := by
        obtain ⟨x, hx1, hx2⟩ := h
        rcases List.mem_cons.mp hx1 with h3 | h3
        · exact absurd (h3 ▸ hd) hx2
        · exact ⟨x, h3, hx2⟩
      obtain ⟨x, hx1, hx2, hx3⟩ := ih (addEdge g d child) h2
      refine ⟨x, List.mem_cons_of_mem d hx1, hx2, ?_⟩
      unfold addDeps
      rw [if_pos hd]
      exact hx3
    · refine ⟨d, List.mem_cons_self d ds, hd, ?_⟩
      unfold addDeps
      rw [if_neg hd]

theorem buildEdges_ok (names : List String) :
    ∀ (todo : List Step) (EP : List (String × String)) (g : GraphSt),
      BuildInv names EP g →
      (∀ s ∈ todo, ∀ d ∈ s.depends_on, d ∈ names) →
      (∀ s ∈ todo, s.name ∈ names) →
      ∃ g2, buildEdges names todo g = .ok g2 ∧
        BuildInv names (EP ++ edgeList todo) g2 := by
  intro todo
  induction todo with
  | nil =>
    intro EP g hinv _ _
    exact ⟨g, rfl, by simpa [edgeList] using hinv⟩
  | cons s rest ih =>
    intro EP g hinv hdeps hnames
    obtain ⟨g1, hg1, hinv1⟩ := addDeps_ok names s.name
      (hnames s (List.mem_cons_self s rest)) s.depends_on EP g hinv
      (hdeps s (List.mem_cons_self s rest))
    obtain ⟨g2, hg2, hinv2⟩ := ih (EP ++ s.depends_on.map (fun d => (d, s.name))) g1
      hinv1 (fun x hx => hdeps x (List.mem_cons_of_mem s hx))
      (fun x hx => hnames x (List.mem_cons_of_mem s hx))
    refine ⟨g2, ?_, ?_⟩
    · show buildEdges names (s :: rest) g = .ok g2
      unfold buildEdges
      rw [hg1]
      exact hg2
    · rw [List.append_assoc] at hinv2
      have he : edgeList (s :: rest)
          = s.depends_on.map (fun d => (d, s.name)) ++ edgeList rest := by
        simp [edgeList]
      rw [he]
      exact hinv2

theorem buildEdges_err (names : List String) :
    ∀ (todo : List Step) (g : GraphSt),
      (∃ s ∈ todo, ∃ d ∈ s.depends_on, d ∉ names) →
      ∃ s d, s ∈ todo ∧ d ∈ s.depends_on ∧ d ∉ names ∧
        buildEdges names todo g = .error (unknownDepMsg s.name d) := by
  intro todo
  induction todo with
  | nil => intro g h; simp at h
  | cons s rest ih =>
    intro g h
    by_cases hs : ∃ d ∈ s.depends_on, d ∉ names
    · obtain ⟨d, hd1, hd2, hd3⟩ := addDeps_err names s.name s.depends_on g hs
      refine ⟨s, d, List.mem_cons_self s rest, hd1, hd2, ?_⟩
      unfold buildEdges
      rw [hd3]
    · have h2 : ∃ s2 ∈ rest, ∃ d ∈ s2.depends_on, d ∉ names := by
        obtain ⟨s2, hs1, hs2⟩ := h
        rcases List.mem_cons.mp hs1 with h3 | h3
        · exact absurd (h3 ▸ hs2) hs
        · exact ⟨s2, h3, hs2⟩
      have hok : ∀ d ∈ s.depends_on, d ∈ names := by
        intro d hd
        by_contra hdn
        exact hs ⟨d, hd, hdn⟩
      obtain ⟨g1, hg1⟩ := addDeps_ok_exists names s.name s.depends_on g hok
      obtain ⟨s2, d2, h1, h2b, h3, h4⟩ := ih g1 h2
      refine ⟨s2, d2, List.mem_cons_of_mem s h1, h2b, h3, ?_⟩
      unfold buildEdges
      rw [hg1]
      exact h4

theorem initAdj_inv (steps : List Step) :
    BuildInv (steps.map Step.name) [] (initAdj steps, initIndeg steps) := by
  constructor
  · intro k
    show k ∈ dictKeys (initAdj steps) ↔ _
    unfold initAdj
    rw [foldInit_keys_mem]
    simp [dictKeys]
  · intro k
    show k ∈ dictKeys (initIndeg steps) ↔ _
    unfold initIndeg
    rw [foldInit_keys_mem]
    simp [dictKeys]
  · exact foldInit_keys_nodup _ _ _ List.nodup_nil
  · exact foldInit_keys_nodup _ _ _ List.nodup_nil
  · intro k hk
    refine ⟨[], ?_, ?_⟩
    · show dictGet (initAdj steps) k = some []
      unfold initAdj
      rw [foldInit_get, if_pos hk]
    · intro c
      simp
  · intro k v h
    have h2 : dictGet (initIndeg steps) k
        = if k ∈ steps.map Step.name then some 0 else none := by
      unfold initIndeg
      rw [foldInit_get]
      by_cases hk : k ∈ steps.map Step.name
      · rw [if_pos hk, if_pos hk]
      · rw [if_neg hk, if_neg hk, dictGet_nil]
    rw [h2] at h
    by_cases hk : k ∈ steps.map Step.name
    · rw [if_pos hk, Option.some.injEq] at h
      rw [← h]
      simp
    · rw [if_neg hk] at h
      exact absurd h (by simp)

theorem build_graph_ok (steps : List Step)
    (h1 : ∀ s ∈ steps, ∀ d ∈ s.depends_on, d ∈ steps.map Step.name) :
    ∃ g, _build_graph steps = .ok g
      ∧ BuildInv (steps.map Step.name) (edgeList steps) g := by
  obtain ⟨g2, hg2, hinv⟩ := buildEdges_ok (steps.map Step.name) steps []
    (initAdj steps, initIndeg steps) (initAdj_inv steps) h1
    (fun s hs => List.mem_map.mpr ⟨s, hs, rfl⟩)
  exact ⟨g2, hg2, by simpa using hinv⟩

theorem build_graph_err (steps : List Step)
    (h : ∃ s ∈ steps, ∃ d ∈ s.depends_on, d ∉ steps.map Step.name) :
    ∃ s d, s ∈ steps ∧ d ∈ s.depends_on ∧ d ∉ steps.map Step.name
      ∧ _build_graph steps = .error (unknownDepMsg s.name d) :=
  buildEdges_err (steps.map Step.name) steps (initAdj steps, initIndeg steps) h

theorem edgeList_child_mem (steps : List Step) (p c : String)
    (h : (p, c) ∈ edgeList steps) : c ∈ steps.map Step.name := by
  unfold edgeList at h
  rw [List.mem_flatMap] at h
  obtain ⟨s, hs, hmem⟩ := h
  rw [List.mem_map] at hmem
  obtain ⟨d, _, hd2⟩ := hmem
  have : c = s.name := (congrArg Prod.snd hd2).symm
  rw [this]
  exact List.mem_map.mpr ⟨s, hs, rfl⟩

theorem edgeList_parent_dep (steps : List Step) (p c : String)
    (h : (p, c) ∈ edgeList steps) : ∃ s ∈ steps, c = s.name ∧ p ∈ s.depends_on := by
  unfold edgeList at h
  rw [List.mem_flatMap] at h
  obtain ⟨s, hs, hmem⟩ := h
  rw [List.mem_map] at hmem
  obtain ⟨d, hd1, hd2⟩ := hmem
  have hdp : d = p := congrArg Prod.fst hd2
  exact ⟨s, hs, (congrArg Prod.snd hd2).symm, hdp ▸ hd1⟩

/-! ### Kahn loop invariant (claim C2) -/

theorem countP_congr_here {α : Type} (l : List α) (p q : α → Bool)
    (h : ∀ a ∈ l, p a = q a) : l.countP p = l.countP q := by
  induction l with
  | nil => simp
  | cons a t ih =>
    rw [List.countP_cons, List.countP_cons, h a (List.mem_cons_self a t),
      ih (fun x hx => h x (List.mem_cons_of_mem a hx))]

theorem foldl_flatMap {α β σ : Type} (f : σ → β → σ) (g : α → List β) :
    ∀ (l : List α) (s : σ),
      l.foldl (fun st a => (g a).foldl f st) s = (l.flatMap g).foldl f s := by
  intro l
  induction l with
  | nil => intro s; rfl
  | cons a t ih =>
    intro s
    rw [List.foldl_cons, List.flatMap_cons, List.foldl_append, ih]

/-- `processLayer` is a single `decChild` fold over the concatenated
children of the layer. -/
theorem processLayer_eq_fold (adj : List (String × List String))
    (layer : List String) (d : List (String × Int)) :
    processLayer adj layer d
      = (layer.flatMap (fun n => (dictGet adj n).getD [])).foldl decChild (d, []) := by
  unfold processLayer processName
  exact foldl_flatMap decChild (fun n => (dictGet adj n).getD []) layer (d, [])

/-- The concatenated children of a duplicate-free layer count, per name,
exactly the edges out of the layer into that name. -/
theorem flatMap_children_countP (steps : List Step)
    (adj : List (String × List String))
    (HA : ∀ p, p ∈ steps.map Step.name → ∃ l, dictGet adj p = some l ∧
      ∀ c, l.countP (fun x => decide (x = c))
        = (edgeList steps).countP (fun e => decide (e = (p, c)))) :
    ∀ q : List String, q.Nodup → (∀ n ∈ q, n ∈ steps.map Step.name) →
      ∀ k, (q.flatMap (fun n => (dictGet adj n).getD [])).countP
          (fun x => decide (x = k))
        = (edgeList steps).countP
          (fun e => decide (e.2 = k) && decide (e.1 ∈ q)) := by
  intro q
  induction q with
  | nil =>
    intro _ _ k
    rw [List.flatMap_nil, List.countP_nil]
    symm
    rw [List.countP_eq_zero]
    intro e _
    simp
  | cons n rest ih =>
    intro hnd hsub k
    rw [List.nodup_cons] at hnd
    obtain ⟨ln, hln, hlncnt⟩ := HA n (hsub n (List.mem_cons_self n rest))
    rw [List.flatMap_cons, List.countP_append, hln]
    simp only [Option.getD_some]
    rw [hlncnt k, ih hnd.2 (fun x hx => hsub x (List.mem_cons_of_mem n hx)) k]
    rw [countP_split (edgeList steps)
      (fun e => decide (e.2 = k) && decide (e.1 ∈ n :: rest))
      (fun e => decide (e.2 = k) && decide (e.1 = n))
      (fun e => decide (e.2 = k) && decide (e.1 ∈ rest))
      ?hor ?hdis]
    case hor =>
      intro e
      by_cases h1 : e.2 = k <;> by_cases h2 : e.1 = n <;>
        by_cases h3 : e.1 ∈ rest <;>
        simp [h1, h2, h3, List.mem_cons]
    case hdis =>
      intro e hgh
      obtain ⟨hg, hh⟩ := hgh
      simp only [Bool.and_eq_true, decide_eq_true_eq] at hg hh
      exact hnd.1 (hg.2 ▸ hh.2)
    have hpt : (edgeList steps).countP (fun e => decide (e = (n, k)))
        = (edgeList steps).countP (fun e => decide (e.2 = k) && decide (e.1 = n)) := by
      apply countP_congr_here
      intro e _
      by_cases h1 : e.1 = n <;> by_cases h2 : e.2 = k <;>
        simp [Prod.ext_iff, h1, h2] <;> try tauto
    rw [hpt]

/-- Removing the layer `q` from the unprocessed set splits the in-degree
count into the post-layer count plus the edges out of `q`. -/
theorem indegCnt_split (steps : List Step) (P q : List String)
    (hdisj : ∀ x ∈ q, x ∉ P) (k : String) :
    indegCnt steps P k
      = indegCnt steps (P ++ q) k
        + (edgeList steps).countP (fun e => decide (e.2 = k) && decide (e.1 ∈ q)) := by
  unfold indegCnt
  apply countP_split
  · intro e
    by_cases h1 : e.2 = k <;> by_cases h2 : e.1 ∈ P <;> by_cases h3 : e.1 ∈ q <;>
      simp [h1, h2, h3, List.mem_append] <;> tauto
  · intro e hgh
    obtain ⟨hg, hh⟩ := hgh
    simp only [Bool.and_eq_true, decide_eq_true_eq] at hg hh
    exact hg.2 (List.mem_append.mpr (Or.inr hh.2))

/-- Invariant of the `decChild` fold over a layer's children: `done` is
the multiset of decrements applied so far, `st.2` the names enqueued so
far (exactly those whose count has just been exhausted). -/
structure DecInv (steps : List Step) (K P : List String) (done : List String)
    (st : List (String × Int) × List String) : Prop where
  keysEq : dictKeys st.1 = K
  vals : ∀ k v, dictGet st.1 k = some v →
    v = (indegCnt steps P k : Int) - (done.countP (fun x => decide (x = k)) : Int)
  accnd : st.2.Nodup
  accchar : ∀ k, k ∈ st.2 ↔
    (0 < done.countP (fun x => decide (x = k))
      ∧ done.countP (fun x => decide (x = k)) = indegCnt steps P k)

theorem decChild_inv (steps : List Step) (K P : List String) (done : List String)
    (st : List (String × Int) × List String) (c : String)
    (hinv : DecInv steps K P done st) (hcK : c ∈ K)
    (hbound : done.countP (fun x => decide (x = c)) + 1 ≤ indegCnt steps P c) :
    DecInv steps K P (done ++ [c]) (decChild st c) := by
  have hex : ∃ v, dictGet st.1 c = some v := by
    cases hv : dictGet st.1 c with
    | none =>
      have := (dictGet_mem_keys st.1 c).mpr (hinv.keysEq ▸ hcK)
      rw [hv] at this
      exact absurd rfl this
    | some v => exact ⟨v, rfl⟩
  obtain ⟨v, hv⟩ := hex
  have hvv := hinv.vals c v hv
  have hcountc : (done ++ [c]).countP (fun x => decide (x = c))
      = done.countP (fun x => decide (x = c)) + 1 := by
    rw [List.countP_append]
    simp
  have hcterm : ∀ k, k ≠ c → (done ++ [c]).countP (fun x => decide (x = k))
      = done.countP (fun x => decide (x = k)) := by
    intro k hk
    rw [List.countP_append]
    simp [decide_eq_false (fun hck : c = k => hk hck.symm)]
  unfold decChild
  rw [hv]
  constructor
  · show dictKeys (dictSet st.1 c (v - 1)) = K
    rw [dictKeys_set, if_pos (hinv.keysEq ▸ hcK)]
    exact hinv.keysEq
  · intro k v2
    show dictGet (dictSet st.1 c (v - 1)) k = some v2 → _
    by_cases hk : k = c
    · subst hk
      rw [dictGet_set_self, Option.some.injEq]
      intro h
      rw [← h, hcountc, hvv]
      push_cast
      ring
    · rw [dictGet_set_other _ _ _ _ hk]
      intro h
      rw [hinv.vals k v2 h, hcterm k hk]
  · show (if v - 1 = 0 then st.2 ++ [c] else st.2).Nodup
    by_cases hz : v - 1 = 0
    · rw [if_pos hz]
      have hnc : c ∉ st.2 := by
        rw [hinv.accchar c]
        intro hcc
        omega
      exact List.Nodup.append hinv.accnd (List.nodup_singleton c)
        (by intro x hx hx2; rw [List.mem_singleton] at hx2; exact hnc (hx2 ▸ hx))
    · rw [if_neg hz]
      exact hinv.accnd
  · intro k
    show k ∈ (if v - 1 = 0 then st.2 ++ [c] else st.2) ↔ _
    have hiff : v - 1 = 0 ↔ done.countP (fun x => decide (x = c)) + 1
        = indegCnt steps P c := by
      rw [hvv]
      omega
    by_cases hk : k = c
    · subst hk
      rw [hcountc]
      by_cases hz : v - 1 = 0
      · rw [if_pos hz, List.mem_append, List.mem_singleton]
        have h2 := hiff.mp hz
        constructor
        · intro _
          omega
        · intro _
          right
          rfl
      · rw [if_neg hz]
        have h2 : ¬ (done.countP (fun x => decide (x = k)) + 1
            = indegCnt steps P k) := fun hc => hz (hiff.mpr hc)
        rw [hinv.accchar k]
        constructor
        · intro hcc
          omega
        · intro hcc
          omega
    · rw [hcterm k hk, ← hinv.accchar k]
      by_cases hz : v - 1 = 0
      · rw [if_pos hz, List.mem_append, List.mem_singleton]
        constructor
        · rintro (h | h)
          · exact h
          · exact absurd h hk
        · intro h
          left
          exact h
      · rw [if_neg hz]

theorem decFold_inv (steps : List Step) (K P : List String) :
    ∀ (todo done : List String) (st : List (String × Int) × List String),
      DecInv steps K P done st →
      (∀ k, (done ++ todo).countP (fun x => decide (x = k)) ≤ indegCnt steps P k) →
      (∀ c ∈ todo, c ∈ K) →
      DecInv steps K P (done ++ todo) (todo.foldl decChild st) := by
  intro todo
  induction todo with
  | nil =>
    intro done st hinv _ _
    simpa using hinv
  | cons c todo2 ih =>
    intro done st hinv hbound hK
    have hstep := decChild_inv steps K P done st c hinv
      (hK c (List.mem_cons_self c todo2))
      (by
        have := hbound c
        rw [List.countP_append] at this
        simp only [List.countP_cons, List.countP_nil, decide_True, if_true] at this
        omega)
    rw [List.foldl_cons]
    have := ih (done ++ [c]) (decChild st c) hstep
      (by
        intro k
        have := hbound k
        rw [List.countP_append] at this ⊢
        rw [List.countP_append]
        simp only [List.countP_cons, List.countP_nil] at this ⊢
        omega)
      (fun x hx => hK x (List.mem_cons_of_mem c hx))
    rwa [List.append_assoc] at this


/-- If the relative in-degree of `n` is zero, all of `n`'s parents have
been processed. -/
theorem indegCnt_zero_parents (steps : List Step) (P : List String) (n : String)
    (h : indegCnt steps P n = 0) :
    ∀ p, (p, n) ∈ edgeList steps → p ∈ P := by
  intro p hp
  unfold indegCnt at h
  rw [List.countP_eq_zero] at h
  have := h (p, n) hp
  simp only [Bool.and_eq_true, decide_eq_true_eq, not_and] at this
  by_contra hnp
  exact this trivial hnp

/-- Invariant of the Kahn `while` loop: `P` holds the names emitted in
earlier layers, `q` the current queue, `d` the in-degree dict. -/
structure KahnInv (steps : List Step) (K P q : List String)
    (d : List (String × Int)) : Prop where
  keysEq : dictKeys d = K
  vals : ∀ k v, dictGet d k = some v → v = (indegCnt steps P k : Int)
  qnd : q.Nodup
  qchar : ∀ k, k ∈ q ↔ (k ∈ K ∧ k ∉ P ∧ indegCnt steps P k = 0)
  Pnd : P.Nodup
  Psub : ∀ k ∈ P, k ∈ K
  Pdone : ∀ k ∈ P, indegCnt steps P k = 0

/-- Processing one layer preserves the loop invariant, with the layer
appended to the processed set. -/
theorem processLayer_inv (steps : List Step) (K : List String)
    (adj : List (String × List String))
    (HA : ∀ p, p ∈ steps.map Step.name → ∃ l, dictGet adj p = some l ∧
      ∀ c, l.countP (fun x => decide (x = c))
        = (edgeList steps).countP (fun e => decide (e = (p, c))))
    (hKn : ∀ k, k ∈ K ↔ k ∈ steps.map Step.name)
    (P q : List String) (d : List (String × Int))
    (hinv : KahnInv steps K P q d) :
    KahnInv steps K (P ++ q) (processLayer adj q d).2 (processLayer adj q d).1 := by
  have hqsub : ∀ n ∈ q, n ∈ steps.map Step.name :=
    fun n hn => (hKn n).mp ((hinv.qchar n).mp hn).1
  have hdisj : ∀ x ∈ q, x ∉ P := fun x hx => ((hinv.qchar x).mp hx).2.1
  have hCL := flatMap_children_countP steps adj HA q hinv.qnd hqsub
  have hsplit := indegCnt_split steps P q hdisj
  have hCLK : ∀ c ∈ q.flatMap (fun n => (dictGet adj n).getD []), c ∈ K := by
    intro c hc
    have hpos : 0 < (q.flatMap (fun n => (dictGet adj n).getD [])).countP
        (fun x => decide (x = c)) :=
      List.countP_pos.mpr ⟨c, hc, by simp⟩
    rw [hCL c] at hpos
    obtain ⟨e, he, hep⟩ := List.countP_pos.mp hpos
    simp only [Bool.and_eq_true, decide_eq_true_eq] at hep
    have : (e.1, c) ∈ edgeList steps := by
      have : e = (e.1, c) := by
        rw [Prod.ext_iff]
        exact ⟨rfl, hep.1⟩
      rwa [this] at he
    exact (hKn c).mpr (edgeList_child_mem steps e.1 c this)
  have hinit : DecInv steps K P [] (d, []) := by
    constructor
    · exact hinv.keysEq
    · intro k v hv
      rw [hinv.vals k v hv]
      simp
    · exact List.nodup_nil
    · intro k
      simp
  have hbound : ∀ k, ([] ++ q.flatMap (fun n => (dictGet adj n).getD [])).countP
      (fun x => decide (x = k)) ≤ indegCnt steps P k := by
    intro k
    rw [List.nil_append, hCL k, hsplit k]
    omega
  have hfold := decFold_inv steps K P (q.flatMap (fun n => (dictGet adj n).getD []))
    [] (d, []) hinit hbound hCLK
  rw [List.nil_append] at hfold
  rw [processLayer_eq_fold]
  constructor
  · exact hfold.keysEq
  · intro k v hv
    have := hfold.vals k v hv
    rw [hCL k] at this
    have h2 := hsplit k
    omega
  · exact hfold.accnd
  · intro k
    rw [hfold.accchar k, hCL k]
    have h2 := hsplit k
    constructor
    · rintro ⟨hpos, heq⟩
      obtain ⟨e, he, hep⟩ := List.countP_pos.mp hpos
      simp only [Bool.and_eq_true, decide_eq_true_eq] at hep
      have hkK : k ∈ K := by
        have hmem : (e.1, k) ∈ edgeList steps := by
          have : e = (e.1, k) := by
            rw [Prod.ext_iff]
            exact ⟨rfl, hep.1⟩
          rwa [this] at he
        exact (hKn k).mpr (edgeList_child_mem steps e.1 k hmem)
      have hknP : k ∉ P := by
        intro hkP
        have := hinv.Pdone k hkP
        omega
      have hknq : k ∉ q := by
        intro hkq
        have := ((hinv.qchar k).mp hkq).2.2
        omega
      refine ⟨hkK, ?_, by omega⟩
      rw [List.mem_append]
      rintro (h | h)
      · exact hknP h
      · exact hknq h
    · rintro ⟨hkK, hknPq, hzero⟩
      rw [List.mem_append] at hknPq
      push_neg at hknPq
      have hne : indegCnt steps P k ≠ 0 := by
        intro h0
        exact hknPq.2 ((hinv.qchar k).mpr ⟨hkK, hknPq.1, h0⟩)
      omega
  · exact List.Nodup.append hinv.Pnd hinv.qnd (fun a ha ha2 => hdisj a ha2 ha)
  · intro k hk
    rw [List.mem_append] at hk
    rcases hk with h | h
    · exact hinv.Psub k h
    · exact ((hinv.qchar k).mp h).1
  · intro k hk
    have h2 := hsplit k
    rw [List.mem_append] at hk
    rcases hk with h | h
    · have := hinv.Pdone k h
      omega
    · have := ((hinv.qchar k).mp h).2.2
      omega

/-- "Every parent appears in a strictly earlier layer", relative to an
already-emitted prefix `P`. -/
def ParentsEarlier (steps : List Step) : List String → List (List String) → Prop
  | _, [] => True
  | P, L :: Ls => (∀ n ∈ L, ∀ p, (p, n) ∈ edgeList steps → p ∈ P)
      ∧ ParentsEarlier steps (P ++ L) Ls

theorem kahnLoop_zero (adj : List (String × List String)) (q : List String)
    (d : List (String × Int)) : kahnLoop adj 0 q d = ([], 0) := rfl

theorem kahnLoop_succ (adj : List (String × List String)) (fuel : Nat)
    (q : List String) (d : List (String × Int)) :
    kahnLoop adj (fuel + 1) q d
      = if q.isEmpty then ([], 0)
        else ((q :: (kahnLoop adj fuel (processLayer adj q d).2
                (processLayer adj q d).1).1),
          q.length + (kahnLoop adj fuel (processLayer adj q d).2
                (processLayer adj q d).1).2) := rfl

/-- Full specification of the Kahn loop from any invariant state: the
emitted names are fresh distinct keys, the visited counter counts them,
parents sit in earlier layers, and every key never emitted retains a
positive relative in-degree. -/
theorem kahnLoop_spec (steps : List Step) (K : List String)
    (adj : List (String × List String))
    (HA : ∀ p, p ∈ steps.map Step.name → ∃ l, dictGet adj p = some l ∧
      ∀ c, l.countP (fun x => decide (x = c))
        = (edgeList steps).countP (fun e => decide (e = (p, c))))
    (hKn : ∀ k, k ∈ K ↔ k ∈ steps.map Step.name) (hKnd : K.Nodup) :
    ∀ (fuel : Nat) (P q : List String) (d : List (String × Int)),
      KahnInv steps K P q d → K.length - P.length < fuel →
      ((kahnLoop adj fuel q d).1.join.Nodup
        ∧ (∀ x ∈ (kahnLoop adj fuel q d).1.join, x ∈ K ∧ x ∉ P)
        ∧ (kahnLoop adj fuel q d).2 = (kahnLoop adj fuel q d).1.join.length
        ∧ ParentsEarlier steps P (kahnLoop adj fuel q d).1
        ∧ (∀ k, k ∈ K → k ∉ P ++ (kahnLoop adj fuel q d).1.join →
            0 < indegCnt steps (P ++ (kahnLoop adj fuel q d).1.join) k)) := by
  intro fuel
  induction fuel with
  | zero =>
    intro P q d hinv hlt
    omega
  | succ fuel ih =>
    intro P q d hinv hlt
    rw [kahnLoop_succ]
    by_cases hq : q.isEmpty
    · rw [if_pos hq]
      have hqnil : q = [] := List.isEmpty_iff.mp hq
      refine ⟨by simp, by simp, by simp, trivial, ?_⟩
      intro k hkK hknP
      simp only [List.join_nil, List.append_nil] at hknP ⊢
      by_contra h0
      have hz : indegCnt steps P k = 0 := by omega
      have : k ∈ q := (hinv.qchar k).mpr ⟨hkK, hknP, hz⟩
      rw [hqnil] at this
      exact absurd this (List.not_mem_nil k)
    · rw [if_neg hq]
      have hqne : q ≠ [] := fun h => hq (h ▸ rfl)
      have hinv2 := processLayer_inv steps K adj HA hKn P q d hinv
      have hlen : (P ++ q).length ≤ K.length :=
        nodup_subset_length hinv2.Pnd hKnd hinv2.Psub
      have hq1 : 1 ≤ q.length := by
        cases q with
        | nil => exact absurd rfl hqne
        | cons a t => simp
      have hmeas : K.length - (P ++ q).length < fuel := by
        rw [List.length_append] at hlen ⊢
        omega
      obtain ⟨h1, h2, h3, h4, h5⟩ := ih (P ++ q) (processLayer adj q d).2
        (processLayer adj q d).1 hinv2 hmeas
      have hjoin : (q :: (kahnLoop adj fuel (processLayer adj q d).2
          (processLayer adj q d).1).1).join
          = q ++ (kahnLoop adj fuel (processLayer adj q d).2
              (processLayer adj q d).1).1.join := rfl
      refine ⟨?_, ?_, ?_, ?_, ?_⟩
      · rw [hjoin]
        refine List.Nodup.append hinv.qnd h1 ?_
        intro a ha ha2
        exact (h2 a ha2).2 (List.mem_append.mpr (Or.inr ha))
      · intro x hx
        rw [hjoin, List.mem_append] at hx
        rcases hx with h | h
        · have := (hinv.qchar x).mp h
          exact ⟨this.1, this.2.1⟩
        · have := h2 x h
          refine ⟨this.1, ?_⟩
          intro hxP
          exact this.2 (List.mem_append.mpr (Or.inl hxP))
      · rw [hjoin, List.length_append, h3]
      · show (∀ n ∈ q, ∀ p, (p, n) ∈ edgeList steps → p ∈ P) ∧ _
        refine ⟨?_, h4⟩
        intro n hn p hp
        exact indegCnt_zero_parents steps P n ((hinv.qchar n).mp hn).2.2 p hp
      · intro k hkK hknP
        rw [hjoin, ← List.append_assoc] at hknP ⊢
        exact h5 k hkK hknP

/-- A duplicate-free list containing a second duplicate-free list of at
least its length is contained in it in turn. -/
theorem nodup_subset_length_eq_mem {l l2 : List String} (h1 : l.Nodup) (h2 : l2.Nodup)
    (h : ∀ x ∈ l, x ∈ l2) (hlen : l2.length ≤ l.length) : ∀ x ∈ l2, x ∈ l := by
  have hsub : l.toFinset ⊆ l2.toFinset :=
    fun x hx => List.mem_toFinset.mpr (h x (List.mem_toFinset.mp hx))
  have hcard : l2.toFinset.card ≤ l.toFinset.card := by
    rw [List.toFinset_card_of_nodup h1, List.toFinset_card_of_nodup h2]
    exact hlen
  have heq := Finset.eq_of_subset_of_card_le hsub hcard
  intro x hx
  exact List.mem_toFinset.mp (by rw [heq]; exact List.mem_toFinset.mpr hx)

/-- In an acyclic graph, a set of names in which every element has an
edge-parent in the set is empty (no infinite descent on a finite set). -/
theorem closed_of_noCycle (steps : List Step) (S : String → Prop)
    (hsub : ∀ x, S x → x ∈ steps.map Step.name)
    (hstep : ∀ x, S x → ∃ p, S p ∧ EdgeRel steps p x)
    (hnc : ¬ HasCycle steps) : ∀ x, ¬ S x := by
  haveI : Fintype {x : String // x ∈ (steps.map Step.name).toFinset} :=
    Fintype.subtype ((steps.map Step.name).toFinset) (fun x => Iff.rfl)
  have hwf : WellFounded (fun a b : {x : String // x ∈ (steps.map Step.name).toFinset} =>
      Relation.TransGen (EdgeRel steps) a.1 b.1) := by
    haveI : IsTrans {x : String // x ∈ (steps.map Step.name).toFinset}
        (fun a b => Relation.TransGen (EdgeRel steps) a.1 b.1) :=
      ⟨fun a b c h1 h2 => Relation.TransGen.trans h1 h2⟩
    haveI : IsIrrefl {x : String // x ∈ (steps.map Step.name).toFinset}
        (fun a b => Relation.TransGen (EdgeRel steps) a.1 b.1) :=
      ⟨fun a h => hnc ⟨a.1, h⟩⟩
    exact Finite.wellFounded_of_trans_of_irrefl _
  have key : ∀ a : {x : String // x ∈ (steps.map Step.name).toFinset}, ¬ S a.1 :=
    fun a => @WellFounded.induction _ _ hwf (fun b => ¬ S b.1) a (fun x ih hS => by
      obtain ⟨p, hSp, hE⟩ := hstep x.1 hS
      exact ih ⟨p, List.mem_toFinset.mpr (hsub p hSp)⟩
        (Relation.TransGen.single hE) hSp)
  intro x hS
  exact key ⟨x, List.mem_toFinset.mpr (hsub x hS)⟩ hS

/-- Index of the first layer containing a name. -/
def layerIdx : List (List String) → String → Nat
  | [], _ => 0
  | L :: Ls, x => if x ∈ L then 0 else layerIdx Ls x + 1

/-- In a layering whose parents sit in earlier layers, each edge strictly
increases the layer index. -/
theorem parentsEarlier_rank (steps : List Step) :
    ∀ (Ls : List (List String)) (P : List String),
      ParentsEarlier steps P Ls →
      ∀ p c, (p, c) ∈ edgeList steps → c ∈ Ls.join → p ∉ P →
        p ∈ Ls.join ∧ layerIdx Ls p < layerIdx Ls c := by
  intro Ls
  induction Ls with
  | nil =>
    intro P _ p c _ hc _
    exact absurd hc (by simp)
  | cons L Ls2 ih =>
    intro P hPE p c he hc hp
    obtain ⟨hL, hrest⟩ := hPE
    by_cases hcL : c ∈ L
    · exact absurd (hL c hcL p he) hp
    · have hcJ : c ∈ Ls2.join := by
        rcases List.mem_append.mp hc with h | h
        · exact absurd h hcL
        · exact h
      by_cases hpL : p ∈ L
      · refine ⟨List.mem_append.mpr (Or.inl hpL), ?_⟩
        simp only [layerIdx]
        rw [if_pos hpL, if_neg hcL]
        omega
      · have hpPL : p ∉ P ++ L := by
          rw [List.mem_append]
          rintro (h | h)
          · exact hp h
          · exact hpL h
        obtain ⟨hpJ, hlt⟩ := ih (P ++ L) hrest p c he hcJ hpPL
        refine ⟨List.mem_append.mpr (Or.inr hpJ), ?_⟩
        simp only [layerIdx]
        rw [if_neg hpL, if_neg hcL]
        omega

/-- Transitive closure of the edge relation also strictly increases the
layer index. -/
theorem rank_of_transGen (steps : List Step) (Ls : List (List String))
    (hPE : ParentsEarlier steps [] Ls) :
    ∀ a b, Relation.TransGen (EdgeRel steps) a b →
      b ∈ Ls.join → a ∈ Ls.join ∧ layerIdx Ls a < layerIdx Ls b := by
  intro a b h
  induction h with
  | single h1 =>
    intro hb
    exact parentsEarlier_rank steps Ls [] hPE _ _ h1 hb (List.not_mem_nil _)
  | tail h1 h2 ih =>
    intro hb
    have hstep := parentsEarlier_rank steps Ls [] hPE _ _ h2 hb (List.not_mem_nil _)
    have hmid := ih hstep.1
    exact ⟨hmid.1, lt_trans hmid.2 hstep.2⟩

/-- A layering with parents in earlier layers covering all step names
certifies acyclicity. -/
theorem layers_no_cycle (steps : List Step) (Ls : List (List String))
    (hPE : ParentsEarlier steps [] Ls)
    (hcov : ∀ k, k ∈ steps.map Step.name → k ∈ Ls.join) : ¬ HasCycle steps := by
  rintro ⟨x, hx⟩
  have hxJ : x ∈ Ls.join := by
    cases hx with
    | single h1 => exact hcov x (edgeList_child_mem steps _ x h1)
    | tail h1 h2 => exact hcov x (edgeList_child_mem steps _ x h2)
  have := rank_of_transGen steps Ls hPE x x hx hxJ
  exact absurd this.2 (lt_irrefl _)

/-- With nothing processed, the relative in-degree is the plain edge
count into `k`. -/
theorem indegCnt_nilP (steps : List Step) (k : String) :
    indegCnt steps [] k = (edgeList steps).countP (fun e => decide (e.2 = k)) := by
  unfold indegCnt
  apply countP_congr_here
  intro e _
  simp

/-- The initial queue and in-degree dict of `topological_sort` satisfy the
Kahn loop invariant with an empty processed set. -/
theorem initial_kahnInv (steps : List Step) (g : GraphSt)
    (hbi : BuildInv (steps.map Step.name) (edgeList steps) g) :
    KahnInv steps (dictKeys g.2) []
      ((g.2.filter (fun p => p.2 = 0)).map Prod.fst) g.2 := by
  constructor
  · rfl
  · intro k v hv
    rw [hbi.indegv k v hv, indegCnt_nilP]
  · have hsl : ((g.2.filter (fun p => decide (p.2 = 0))).map Prod.fst).Sublist
        (g.2.map Prod.fst) :=
      List.Sublist.map Prod.fst (List.filter_sublist g.2)
    exact List.Nodup.sublist hsl hbi.ndI
  · intro k
    constructor
    · intro hk
      rw [List.mem_map] at hk
      obtain ⟨pr, hpr, hfst⟩ := hk
      rw [List.mem_filter] at hpr
      obtain ⟨hmem, hz⟩ := hpr
      rw [decide_eq_true_eq] at hz
      have hget : dictGet g.2 k = some 0 := by
        have hkv : (k, (0 : Int)) ∈ g.2 := by
          have : pr = (k, (0 : Int)) := by
            rw [Prod.ext_iff]
            exact ⟨hfst, hz⟩
          rwa [this] at hmem
        exact (mem_dictGet g.2 k 0 hbi.ndI).mp hkv
      refine ⟨(dictGet_mem_keys g.2 k).mp (by rw [hget]; simp), by simp, ?_⟩
      have := hbi.indegv k 0 hget
      rw [indegCnt_nilP]
      omega
    · rintro ⟨hkK, -, hz⟩
      have hne := (dictGet_mem_keys g.2 k).mpr hkK
      cases hv : dictGet g.2 k with
      | none => exact absurd hv hne
      | some v =>
        have hvz : v = 0 := by
          have := hbi.indegv k v hv
          rw [indegCnt_nilP] at hz
          omega
        rw [List.mem_map]
        refine ⟨(k, v), ?_, rfl⟩
        rw [List.mem_filter]
        exact ⟨(mem_dictGet g.2 k v hbi.ndI).mpr hv, by rw [hvz]; simp⟩
  · exact List.nodup_nil
  · intro k hk
    exact absurd hk (List.not_mem_nil k)
  · intro k hk
    exact absurd hk (List.not_mem_nil k)

theorem topological_sort_eq_of_ok (steps : List Step) (g : GraphSt)
    (hg : _build_graph steps = .ok g) :
    topological_sort steps
      = (if (kahnLoop g.1 (g.2.length + 1)
              ((g.2.filter (fun p => p.2 = 0)).map Prod.fst) g.2).2 = g.2.length
         then .ok (kahnLoop g.1 (g.2.length + 1)
              ((g.2.filter (fun p => p.2 = 0)).map Prod.fst) g.2).1
         else .error cycleMsg) := by
  unfold topological_sort
  rw [hg]

theorem topological_sort_eq_of_err (steps : List Step) (e : String)
    (hg : _build_graph steps = .error e) :
    topological_sort steps = .error e := by
  unfold topological_sort
  rw [hg]

theorem dictKeys_length {α : Type} (d : List (String × α)) :
    (dictKeys d).length = d.length :=
  List.length_map d Prod.fst

/-- When the visited counter matches the key count, the emitted layering
is a duplicate-free cover of the step names with parents in strictly
earlier layers. -/
theorem kahn_result_char (steps : List Step) (g : GraphSt)
    (hbi : BuildInv (steps.map Step.name) (edgeList steps) g)
    (hcond : (kahnLoop g.1 (g.2.length + 1)
        ((g.2.filter (fun p => p.2 = 0)).map Prod.fst) g.2).2 = g.2.length) :
    (kahnLoop g.1 (g.2.length + 1)
        ((g.2.filter (fun p => p.2 = 0)).map Prod.fst) g.2).1.join.Nodup
    ∧ (∀ k, k ∈ (kahnLoop g.1 (g.2.length + 1)
        ((g.2.filter (fun p => p.2 = 0)).map Prod.fst) g.2).1.join
        ↔ k ∈ steps.map Step.name)
    ∧ ParentsEarlier steps [] (kahnLoop g.1 (g.2.length + 1)
        ((g.2.filter (fun p => p.2 = 0)).map Prod.fst) g.2).1 := by
  have hKlen : (dictKeys g.2).length = g.2.length := dictKeys_length g.2
  obtain ⟨h1, h2, h3, h4, h5⟩ := kahnLoop_spec steps (dictKeys g.2) g.1 hbi.adjv
    hbi.keysI hbi.ndI (g.2.length + 1) []
    ((g.2.filter (fun p => p.2 = 0)).map Prod.fst) g.2
    (initial_kahnInv steps g hbi) (by omega)
  have hjl : (kahnLoop g.1 (g.2.length + 1)
      ((g.2.filter (fun p => p.2 = 0)).map Prod.fst) g.2).1.join.length
      = g.2.length := by
    rw [← h3]
    exact hcond
  have hcov := nodup_subset_length_eq_mem h1 hbi.ndI (fun x hx => (h2 x hx).1)
    (by omega)
  refine ⟨h1, ?_, h4⟩
  intro k
  constructor
  · intro hk
    exact (hbi.keysI k).mp ((h2 k hk).1)
  · intro hk
    exact hcov k ((hbi.keysI k).mpr hk)

/-- With all dependencies known and no cycle, `topological_sort`
succeeds. -/
theorem topological_sort_ok_of_acyclic (steps : List Step)
    (h1 : ∀ s ∈ steps, ∀ d2 ∈ s.depends_on, d2 ∈ steps.map Step.name)
    (hnc : ¬ HasCycle steps) :
    ∃ layers, topological_sort steps = .ok layers := by
  obtain ⟨g, hg, hbi⟩ := build_graph_ok steps h1
  rw [topological_sort_eq_of_ok steps g hg]
  have hKlen : (dictKeys g.2).length = g.2.length := dictKeys_length g.2
  obtain ⟨hj1, hj2, hj3, hj4, hj5⟩ := kahnLoop_spec steps (dictKeys g.2) g.1
    hbi.adjv hbi.keysI hbi.ndI (g.2.length + 1) []
    ((g.2.filter (fun p => p.2 = 0)).map Prod.fst) g.2
    (initial_kahnInv steps g hbi) (by omega)
  have hcov : ∀ k ∈ dictKeys g.2,
      k ∈ (kahnLoop g.1 (g.2.length + 1)
        ((g.2.filter (fun p => p.2 = 0)).map Prod.fst) g.2).1.join := by
    have hclosed := closed_of_noCycle steps
      (fun x => x ∈ dictKeys g.2 ∧ x ∉ (kahnLoop g.1 (g.2.length + 1)
        ((g.2.filter (fun p => p.2 = 0)).map Prod.fst) g.2).1.join)
      (fun x hx => (hbi.keysI x).mp hx.1)
      (fun x hx => by
        have hpos := hj5 x hx.1 (by
          rw [List.nil_append]
          exact hx.2)
        rw [List.nil_append] at hpos
        unfold indegCnt at hpos
        obtain ⟨e, he, hep⟩ := List.countP_pos.mp hpos
        simp only [Bool.and_eq_true, decide_eq_true_eq] at hep
        have hmem : (e.1, x) ∈ edgeList steps := by
          have : e = (e.1, x) := by
            rw [Prod.ext_iff]
            exact ⟨rfl, hep.1⟩
          rwa [this] at he
        refine ⟨e.1, ⟨?_, hep.2⟩, hmem⟩
        obtain ⟨s, hs, -, hpd⟩ := edgeList_parent_dep steps e.1 x hmem
        exact (hbi.keysI e.1).mpr (h1 s hs e.1 hpd))
      hnc
    intro k hk
    by_contra hnk
    exact hclosed k ⟨hk, hnk⟩
  have hlen1 : (kahnLoop g.1 (g.2.length + 1)
      ((g.2.filter (fun p => p.2 = 0)).map Prod.fst) g.2).1.join.length
      ≤ (dictKeys g.2).length :=
    nodup_subset_length hj1 hbi.ndI (fun x hx => (hj2 x hx).1)
  have hlen2 : (dictKeys g.2).length
      ≤ (kahnLoop g.1 (g.2.length + 1)
      ((g.2.filter (fun p => p.2 = 0)).map Prod.fst) g.2).1.join.length :=
    nodup_subset_length hbi.ndI hj1 hcov
  rw [if_pos (by omega)]
  exact ⟨_, rfl⟩

/-- With all dependencies known but a cycle present, `topological_sort`
fails with the cycle error. -/
theorem topological_sort_cycle (steps : List Step)
    (h1 : ∀ s ∈ steps, ∀ d2 ∈ s.depends_on, d2 ∈ steps.map Step.name)
    (hc : HasCycle steps) :
    topological_sort steps = .error cycleMsg := by
  obtain ⟨g, hg, hbi⟩ := build_graph_ok steps h1
  rw [topological_sort_eq_of_ok steps g hg]
  rw [if_neg]
  intro hcond
  obtain ⟨-, hmem, hPE⟩ := kahn_result_char steps g hbi hcond
  exact absurd hc (layers_no_cycle steps _ hPE (fun k hk => (hmem k).mpr hk))

/-- Any successful `topological_sort` result is a duplicate-free cover of
the step names with parents in strictly earlier layers. -/
theorem topological_sort_ok_char (steps : List Step) (layers : List (List String))
    (hok : topological_sort steps = .ok layers) :
    layers.join.Nodup
    ∧ (∀ k, k ∈ layers.join ↔ k ∈ steps.map Step.name)
    ∧ ParentsEarlier steps [] layers := by
  have h1 : ∀ s ∈ steps, ∀ d2 ∈ s.depends_on, d2 ∈ steps.map Step.name := by
    by_contra hcon
    push_neg at hcon
    obtain ⟨s, d2, hs, hd, hdn, herr⟩ := build_graph_err steps
      (by
        obtain ⟨s, hs, d2, hd, hdn⟩ := hcon
        exact ⟨s, hs, d2, hd, hdn⟩)
    rw [topological_sort_eq_of_err steps _ herr] at hok
    exact absurd hok (by simp)
  obtain ⟨g, hg, hbi⟩ := build_graph_ok steps h1
  rw [topological_sort_eq_of_ok steps g hg] at hok
  by_cases hcond : (kahnLoop g.1 (g.2.length + 1)
      ((g.2.filter (fun p => p.2 = 0)).map Prod.fst) g.2).2 = g.2.length
  · rw [if_pos hcond, Except.ok.injEq] at hok
    rw [← hok]
    exact kahn_result_char steps g hbi hcond
  · rw [if_neg hcond] at hok
    exact absurd hok (by simp)

/-- Indexed reading of `ParentsEarlier`: a parent of a layer-`i` name
lies in the prefix before layer `i`. -/
theorem parentsEarlier_get (steps : List Step) :
    ∀ (Ls : List (List String)) (P : List String), ParentsEarlier steps P Ls →
      ∀ (i : Nat) (hi : i < Ls.length) (n : String), n ∈ Ls.get ⟨i, hi⟩ →
        ∀ p, (p, n) ∈ edgeList steps → p ∈ P ++ (Ls.take i).join := by
  intro Ls
  induction Ls with
  | nil =>
    intro P _ i hi
    exact absurd hi (by simp)
  | cons L Ls2 ih =>
    intro P hPE i hi n hn p hp
    obtain ⟨hL, hrest⟩ := hPE
    cases i with
    | zero =>
      simp only [List.take_zero, List.join_nil, List.append_nil]
      exact hL n hn p hp
    | succ i2 =>
      have := ih (P ++ L) hrest i2 (by simpa using hi) n (by simpa using hn) p hp
      simpa [List.append_assoc] using this

/-- A strictly edge-increasing rank certifies acyclicity. -/
theorem noCycle_of_rank (steps : List Step) (rk : String → Nat)
    (h : ∀ e ∈ edgeList steps, rk e.1 < rk e.2) : ¬ HasCycle steps := by
  rintro ⟨x, hx⟩
  have key : ∀ a b, Relation.TransGen (EdgeRel steps) a b → rk a < rk b := by
    intro a b hab
    induction hab with
    | single h1 => exact h _ h1
    | tail h1 h2 ih => exact lt_trans ih (h _ h2)
  exact absurd (key x x hx) (lt_irrefl _)

/-- C2: with all `depends_on` references known and an acyclic dependency
graph, `topological_sort` returns layers in which every step name appears
exactly once and every dependency of a step sits in a strictly earlier
layer; an unknown dependency raises the validation error naming the
unknown step, and a cycle raises the cycle error. -/
theorem C2_topological_sort_spec (steps : List Step) :
    ((∀ s ∈ steps, ∀ d2 ∈ s.depends_on, d2 ∈ steps.map Step.name) →
      ¬ HasCycle steps →
      ∃ layers, topological_sort steps = .ok layers
        ∧ layers.join.Nodup
        ∧ (∀ k, k ∈ layers.join ↔ k ∈ steps.map Step.name)
        ∧ (∀ (i : Nat) (hi : i < layers.length) (n : String),
            n ∈ layers.get ⟨i, hi⟩ → ∀ p, EdgeRel steps p n →
              p ∈ (layers.take i).join))
    ∧ ((∃ s ∈ steps, ∃ d2 ∈ s.depends_on, d2 ∉ steps.map Step.name) →
        ∃ s d2, s ∈ steps ∧ d2 ∈ s.depends_on ∧ d2 ∉ steps.map Step.name
          ∧ topological_sort steps = .error (unknownDepMsg s.name d2))
    ∧ ((∀ s ∈ steps, ∀ d2 ∈ s.depends_on, d2 ∈ steps.map Step.name) →
        HasCycle steps → topological_sort steps = .error cycleMsg) := by
  refine ⟨?_, ?_, ?_⟩
  · intro h1 hnc
    obtain ⟨layers, hok⟩ := topological_sort_ok_of_acyclic steps h1 hnc
    obtain ⟨hnd, hmem, hPE⟩ := topological_sort_ok_char steps layers hok
    refine ⟨layers, hok, hnd, hmem, ?_⟩
    intro i hi n hn p hp
    have := parentsEarlier_get steps layers [] hPE i hi n hn p hp
    simpa using this
  · intro h
    obtain ⟨s, d2, hs, hd, hdn, herr⟩ := build_graph_err steps h
    exact ⟨s, d2, hs, hd, hdn, topological_sort_eq_of_err steps _ herr⟩
  · intro h1 hc
    exact topological_sort_cycle steps h1 hc

/-- A diamond-shaped pipeline used to instantiate the C2 theorem. -/
def c2steps : List Step :=
  [⟨"a", "t1", [], none⟩, ⟨"b", "t2", ["a"], none⟩, ⟨"c", "t3", ["a"], none⟩,
   ⟨"d", "t4", ["b", "c"], none⟩]

/-- A rank certifying that `c2steps` is acyclic. -/
def c2rk : String → Nat :=
  fun s => if s = "a" then 0 else if s = "d" then 2 else 1

theorem C2_witness :
    (∀ s ∈ c2steps, ∀ d2 ∈ s.depends_on, d2 ∈ c2steps.map Step.name)
    ∧ ¬ HasCycle c2steps
    ∧ ∃ layers, topological_sort c2steps = .ok layers
        ∧ layers.join.Nodup
        ∧ (∀ k, k ∈ layers.join ↔ k ∈ c2steps.map Step.name)
        ∧ (∀ (i : Nat) (hi : i < layers.length) (n : String),
            n ∈ layers.get ⟨i, hi⟩ → ∀ p, EdgeRel c2steps p n →
              p ∈ (layers.take i).join) :=
  ⟨by decide,
   noCycle_of_rank c2steps c2rk (by decide),
   (C2_topological_sort_spec c2steps).1 (by decide)
     (noCycle_of_rank c2steps c2rk (by decide))⟩

/-! ### Orchestrator layer semantics (claims C3, C9) -/

/-- A step worker that returns normally wrote status `completed`; the
orchestrator's post-dispatch `status == "failed"` verification can
therefore never fire after a normal return. -/
theorem stepLoop_ok_status (excs : Nat → Option String)
    (out : List (String × JValue)) :
    ∀ (fuel a : Nat) (v : List (String × JValue)),
      (stepLoop excs out a fuel).2.2 = .ok v →
      (stepLoop excs out a fuel).2.1.status = "completed" := by
  intro fuel
  induction fuel with
  | zero =>
    intro a v h
    exact absurd h (by simp [stepLoop])
  | succ fuel ih =>
    intro a v h
    unfold stepLoop at h ⊢
    cases hex : excs a with
    | none => rfl
    | some e =>
      rw [hex] at h
      dsimp only at h ⊢
      by_cases ha : a < MAX_ATTEMPTS
      · rw [if_pos ha] at h ⊢
        exact ih (a + 1) v h
      · rw [if_neg ha] at h
        exact absurd h (by simp)

theorem callStep_ok_status (stepExcs : String → Nat → Option String)
    (stepOuts : String → List (String × JValue)) (name : String)
    (v : List (String × JValue))
    (h : (callStep stepExcs stepOuts name).2 = .ok v) :
    (callStep stepExcs stepOuts name).1.status = "completed" := by
  unfold callStep at h ⊢
  dsimp only at h ⊢
  exact stepLoop_ok_status (stepExcs name) (stepOuts name) MAX_ATTEMPTS 1 v h

/-- `find?` splits its list at the first hit. -/
theorem find_split {α : Type} (p : α → Bool) :
    ∀ (l : List α) (a : α), l.find? p = some a →
      ∃ pre post, l = pre ++ a :: post ∧ (∀ x ∈ pre, p x = false)
        ∧ p a = true := by
  intro l
  induction l with
  | nil =>
    intro a h
    exact absurd h (by simp)
  | cons x t ih =>
    intro a h
    cases hp : p x with
    | true =>
      rw [List.find?_cons_of_pos t hp, Option.some.injEq] at h
      exact ⟨[], t, by rw [h]; rfl, by simp, h ▸ hp⟩
    | false =>
      rw [List.find?_cons_of_neg t (by simp [hp])] at h
      obtain ⟨pre, post, heq, hpre, ha⟩ := ih a h
      refine ⟨x :: pre, post, by rw [heq, List.cons_append], ?_, ha⟩
      intro y hy
      rcases List.mem_cons.mp hy with h2 | h2
      · rw [h2]
        exact hp
      · exact hpre y h2

/-- One-step unfolding of the layer loop: a step whose worker returns
normally records its job and output and the loop continues. -/
theorem runStepsInLayer_cons_ok (steps : List Step)
    (stepExcs : String → Nat → Option String)
    (stepOuts : String → List (String × JValue)) (name : String)
    (rest : List String) (st : ExecState) (out : List (String × JValue))
    (hc : (callStep stepExcs stepOuts name).2 = .ok out) :
    runStepsInLayer steps stepExcs stepOuts (name :: rest) st
      = runStepsInLayer steps stepExcs stepOuts rest
          { st with
            jobs := dictSet st.jobs name (callStep stepExcs stepOuts name).1
            outputs := dictSet st.outputs name
              (if out.isEmpty then [("exit_code", JValue.num 0)] else out) } := by
  have hst := callStep_ok_status stepExcs stepOuts name out hc
  simp only [runStepsInLayer]
  rw [hc]
  dsimp only
  rw [if_neg (by rw [hst]; decide)]

/-- One-step unfolding: a worker exception on a non-stop step records the
job and the error output and the loop continues. -/
theorem runStepsInLayer_cons_err_go (steps : List Step)
    (stepExcs : String → Nat → Option String)
    (stepOuts : String → List (String × JValue)) (name : String)
    (rest : List String) (st : ExecState) (e : String)
    (hc : (callStep stepExcs stepOuts name).2 = .error e)
    (hnf : ((findStep steps name).on_failure.getD "stop") ≠ "stop") :
    runStepsInLayer steps stepExcs stepOuts (name :: rest) st
      = runStepsInLayer steps stepExcs stepOuts rest
          { st with
            jobs := dictSet st.jobs name (callStep stepExcs stepOuts name).1
            outputs := dictSet st.outputs name
              [("error", JValue.str (pyTrunc e 500))] } := by
  simp only [runStepsInLayer, stepExcEffect]
  rw [hc]
  dsimp only
  rw [if_neg hnf]
  dsimp only
  rw [if_neg (by decide : ¬ (false = true))]

/-- One-step unfolding: a worker exception on a stop step records the job
and the error output, marks the run failed and breaks. -/
theorem runStepsInLayer_cons_err_stop (steps : List Step)
    (stepExcs : String → Nat → Option String)
    (stepOuts : String → List (String × JValue)) (name : String)
    (rest : List String) (st : ExecState) (e : String)
    (hc : (callStep stepExcs stepOuts name).2 = .error e)
    (hf : ((findStep steps name).on_failure.getD "stop") = "stop") :
    runStepsInLayer steps stepExcs stepOuts (name :: rest) st
      = { st with
          jobs := dictSet st.jobs name (callStep stepExcs stepOuts name).1
          outputs := dictSet st.outputs name
            [("error", JValue.str (pyTrunc e 500))]
          failed := true
          runError := some (stepFailMsg name (pyTrunc e 500)) } := by
  simp only [runStepsInLayer, stepExcEffect]
  rw [hc]
  dsimp only
  rw [if_pos hf]
  dsimp only
  rw [if_pos rfl]

theorem stopFailPred_false_elim (steps : List Step)
    (stepExcs : String → Nat → Option String)
    (stepOuts : String → List (String × JValue)) (name : String)
    (h : stopFailPred steps stepExcs stepOuts name = false) :
    (∃ out, (callStep stepExcs stepOuts name).2 = .ok out)
    ∨ (∃ e, (callStep stepExcs stepOuts name).2 = .error e
        ∧ ((findStep steps name).on_failure.getD "stop") ≠ "stop") := by
  unfold stopFailPred at h
  cases hc : (callStep stepExcs stepOuts name).2 with
  | ok out => exact Or.inl ⟨out, rfl⟩
  | error e =>
    rw [hc] at h
    dsimp only at h
    rw [Bool.true_and] at h
    right
    exact ⟨e, rfl, by simpa using h⟩

theorem stopFailPred_true_elim (steps : List Step)
    (stepExcs : String → Nat → Option String)
    (stepOuts : String → List (String × JValue)) (name : String)
    (h : stopFailPred steps stepExcs stepOuts name = true) :
    ∃ e, (callStep stepExcs stepOuts name).2 = .error e
      ∧ ((findStep steps name).on_failure.getD "stop") = "stop" := by
  unfold stopFailPred at h
  cases hc : (callStep stepExcs stepOuts name).2 with
  | ok out =>
    rw [hc] at h
    dsimp only at h
    exact absurd h (by simp)
  | error e =>
    rw [hc] at h
    dsimp only at h
    rw [Bool.true_and, decide_eq_true_eq] at h
    exact ⟨e, rfl, h⟩

/-- A layer with no stop-policy failure leaves the run fields untouched
and only writes job records of its own names. -/
theorem runStepsInLayer_noStop (steps : List Step)
    (stepExcs : String → Nat → Option String)
    (stepOuts : String → List (String × JValue)) :
    ∀ (layer : List String) (st : ExecState),
      (∀ n ∈ layer, stopFailPred steps stepExcs stepOuts n = false) →
      ((runStepsInLayer steps stepExcs stepOuts layer st).failed = st.failed)
      ∧ ((runStepsInLayer steps stepExcs stepOuts layer st).runStatus
          = st.runStatus)
      ∧ ((runStepsInLayer steps stepExcs stepOuts layer st).runError
          = st.runError)
      ∧ ((runStepsInLayer steps stepExcs stepOuts layer st).runCompletedAt
          = st.runCompletedAt)
      ∧ (∀ k, k ∉ layer →
          dictGet (runStepsInLayer steps stepExcs stepOuts layer st).jobs k
            = dictGet st.jobs k) := by
  intro layer
  induction layer with
  | nil =>
    intro st _
    exact ⟨rfl, rfl, rfl, rfl, fun k _ => rfl⟩
  | cons name rest ih =>
    intro st hall
    have hn := hall name (List.mem_cons_self name rest)
    have hrest := fun x hx => hall x (List.mem_cons_of_mem name hx)
    rcases stopFailPred_false_elim steps stepExcs stepOuts name hn with
      ⟨out, hc⟩ | ⟨e, hc, hnf⟩
    · rw [runStepsInLayer_cons_ok steps stepExcs stepOuts name rest st out hc]
      obtain ⟨h1, h2, h3, h4, h5⟩ := ih _ hrest
      refine ⟨h1, h2, h3, h4, ?_⟩
      intro k hk
      rw [h5 k (fun hx => hk (List.mem_cons_of_mem name hx))]
      exact dictGet_set_other st.jobs name k _
        (fun hx => hk (hx ▸ List.mem_cons_self name rest))
    · rw [runStepsInLayer_cons_err_go steps stepExcs stepOuts name rest st e hc hnf]
      obtain ⟨h1, h2, h3, h4, h5⟩ := ih _ hrest
      refine ⟨h1, h2, h3, h4, ?_⟩
      intro k hk
      rw [h5 k (fun hx => hk (List.mem_cons_of_mem name hx))]
      exact dictGet_set_other st.jobs name k _
        (fun hx => hk (hx ▸ List.mem_cons_self name rest))

/-- A layer whose first stop-policy failure is at `s` (after a failure-free
prefix `pre`) marks the run failed, stores the step-failure run error, and
leaves the job records of all other names untouched. -/
theorem runStepsInLayer_stop (steps : List Step)
    (stepExcs : String → Nat → Option String)
    (stepOuts : String → List (String × JValue)) :
    ∀ (pre : List String) (s : String) (post : List String) (st : ExecState),
      (∀ n ∈ pre, stopFailPred steps stepExcs stepOuts n = false) →
      stopFailPred steps stepExcs stepOuts s = true →
      ((runStepsInLayer steps stepExcs stepOuts (pre ++ s :: post) st).failed
          = true)
      ∧ ((runStepsInLayer steps stepExcs stepOuts (pre ++ s :: post) st).runStatus
          = st.runStatus)
      ∧ ((runStepsInLayer steps stepExcs stepOuts
            (pre ++ s :: post) st).runCompletedAt = st.runCompletedAt)
      ∧ (∃ e, (runStepsInLayer steps stepExcs stepOuts
            (pre ++ s :: post) st).runError
          = some (stepFailMsg s (pyTrunc e 500)))
      ∧ (∀ k, k ∉ pre → k ≠ s →
          dictGet (runStepsInLayer steps stepExcs stepOuts
            (pre ++ s :: post) st).jobs k
            = dictGet st.jobs k) := by
  intro pre
  induction pre with
  | nil =>
    intro s post st _ hs
    obtain ⟨e, hc, hf⟩ := stopFailPred_true_elim steps stepExcs stepOuts s hs
    rw [List.nil_append,
      runStepsInLayer_cons_err_stop steps stepExcs stepOuts s post st e hc hf]
    refine ⟨rfl, rfl, rfl, ⟨e, rfl⟩, ?_⟩
    intro k _ hks
    exact dictGet_set_other st.jobs s k _ hks
  | cons name rest ih =>
    intro s post st hall hs
    have hn := hall name (List.mem_cons_self name rest)
    have hrest := fun x hx => hall x (List.mem_cons_of_mem name hx)
    rw [List.cons_append]
    rcases stopFailPred_false_elim steps stepExcs stepOuts name hn with
      ⟨out, hc⟩ | ⟨e, hc, hnf⟩
    · rw [runStepsInLayer_cons_ok steps stepExcs stepOuts name
        (rest ++ s :: post) st out hc]
      obtain ⟨h1, h2, h3, h4, h5⟩ := ih s post _ hrest hs
      refine ⟨h1, h2, h3, h4, ?_⟩
      intro k hk hks
      rw [h5 k (fun hx => hk (List.mem_cons_of_mem name hx)) hks]
      exact dictGet_set_other st.jobs name k _
        (fun hx => hk (hx ▸ List.mem_cons_self name rest))
    · rw [runStepsInLayer_cons_err_go steps stepExcs stepOuts name
        (rest ++ s :: post) st e hc hnf]
      obtain ⟨h1, h2, h3, h4, h5⟩ := ih s post _ hrest hs
      refine ⟨h1, h2, h3, h4, ?_⟩
      intro k hk hks
      rw [h5 k (fun hx => hk (List.mem_cons_of_mem name hx)) hks]
      exact dictGet_set_other st.jobs name k _
        (fun hx => hk (hx ▸ List.mem_cons_self name rest))

theorem skipMark_get (layer : List String) :
    ∀ (js : List (String × JobRec)) (k : String),
      dictGet (layer.foldl (fun js2 n => dictSet js2 n skipRec) js) k
        = if k ∈ layer then some skipRec else dictGet js k := by
  induction layer with
  | nil =>
    intro js k
    simp
  | cons n rest ih =>
    intro js k
    rw [List.foldl_cons, ih]
    by_cases hk : k ∈ rest
    · rw [if_pos hk, if_pos (List.mem_cons_of_mem n hk)]
    · rw [if_neg hk]
      by_cases hkn : k = n
      · rw [hkn, dictGet_set_self, if_pos (List.mem_cons_self n rest)]
      · rw [dictGet_set_other js n k _ hkn,
          if_neg (by rw [List.mem_cons]; rintro (h | h); exacts [hkn h, hk h])]

/-- Once the failed flag is set, the remaining layers are skip-marked:
the run fields are untouched, every name of a remaining layer reads
`skipRec`, and every other job record is untouched. -/
theorem runLayers_failed (steps : List Step)
    (stepExcs : String → Nat → Option String)
    (stepOuts : String → List (String × JValue)) :
    ∀ (Ls : List (List String)) (st : ExecState), st.failed = true →
      ((runLayers steps stepExcs stepOuts Ls st).failed = true)
      ∧ ((runLayers steps stepExcs stepOuts Ls st).runStatus = st.runStatus)
      ∧ ((runLayers steps stepExcs stepOuts Ls st).runError = st.runError)
      ∧ ((runLayers steps stepExcs stepOuts Ls st).runCompletedAt
          = st.runCompletedAt)
      ∧ (∀ k, (∃ L ∈ Ls, k ∈ L) →
          dictGet (runLayers steps stepExcs stepOuts Ls st).jobs k
            = some skipRec)
      ∧ (∀ k, (∀ L ∈ Ls, k ∉ L) →
          dictGet (runLayers steps stepExcs stepOuts Ls st).jobs k
            = dictGet st.jobs k) := by
  intro Ls
  induction Ls with
  | nil =>
    intro st hf
    exact ⟨hf, rfl, rfl, rfl, fun k hk => absurd hk (by simp), fun k _ => rfl⟩
  | cons layer rest ih =>
    intro st hf
    rw [show runLayers steps stepExcs stepOuts (layer :: rest) st
        = runLayers steps stepExcs stepOuts rest (skipMarkLayer layer st) by
      simp only [runLayers]
      rw [if_pos hf]]
    obtain ⟨h1, h2, h3, h4, h5, h6⟩ := ih (skipMarkLayer layer st) hf
    refine ⟨h1, h2, h3, h4, ?_, ?_⟩
    · intro k hk
      obtain ⟨L, hL, hkL⟩ := hk
      rcases List.mem_cons.mp hL with h | h
      · by_cases hr : ∃ L2 ∈ rest, k ∈ L2
        · exact h5 k hr
        · push_neg at hr
          rw [h6 k hr]
          show dictGet (layer.foldl (fun js2 n => dictSet js2 n skipRec) st.jobs) k
            = some skipRec
          rw [skipMark_get, if_pos (h ▸ hkL)]
      · exact h5 k ⟨L, h, hkL⟩
    · intro k hk
      rw [h6 k (fun L hL => hk L (List.mem_cons_of_mem layer hL))]
      show dictGet (layer.foldl (fun js2 n => dictSet js2 n skipRec) st.jobs) k
        = dictGet st.jobs k
      rw [skipMark_get, if_neg (hk layer (List.mem_cons_self layer rest))]

theorem firstStopFail_cons_some (steps : List Step)
    (stepExcs : String → Nat → Option String)
    (stepOuts : String → List (String × JValue)) (layer : List String)
    (rest : List (List String)) (s : String)
    (hls : layerStopFail steps stepExcs stepOuts layer = some s) :
    firstStopFail steps stepExcs stepOuts (layer :: rest) = some (0, s) := by
  unfold firstStopFail
  rw [hls]

theorem firstStopFail_cons_none (steps : List Step)
    (stepExcs : String → Nat → Option String)
    (stepOuts : String → List (String × JValue)) (layer : List String)
    (rest : List (List String))
    (hls : layerStopFail steps stepExcs stepOuts layer = none) :
    firstStopFail steps stepExcs stepOuts (layer :: rest)
      = (match firstStopFail steps stepExcs stepOuts rest with
         | some r => some (r.1 + 1, r.2)
         | none => none) := by
  conv_lhs => unfold firstStopFail
  rw [hls]

/-- Full orchestration of the layer list from a not-yet-failed state:
either no stop-policy step fails and the failed flag stays clear, or the
first stop failure `(i, s)` marks the run failed with the step-failure
error, leaves every job outside the dispatched prefix of layer `i` and
outside the later layers untouched, and skip-marks every later layer. -/
theorem runLayers_spec (steps : List Step)
    (stepExcs : String → Nat → Option String)
    (stepOuts : String → List (String × JValue)) :
    ∀ (Ls : List (List String)) (st : ExecState),
      st.failed = false →
      ((firstStopFail steps stepExcs stepOuts Ls = none →
        ((runLayers steps stepExcs stepOuts Ls st).failed = false)
        ∧ ((runLayers steps stepExcs stepOuts Ls st).runStatus = st.runStatus))
      ∧ (∀ i s, firstStopFail steps stepExcs stepOuts Ls = some (i, s) →
        ∃ (hi : i < Ls.length) (pre post : List String) (e : String),
          Ls.get ⟨i, hi⟩ = pre ++ s :: post
          ∧ ((runLayers steps stepExcs stepOuts Ls st).failed = true)
          ∧ ((runLayers steps stepExcs stepOuts Ls st).runStatus = st.runStatus)
          ∧ ((runLayers steps stepExcs stepOuts Ls st).runError
              = some (stepFailMsg s (pyTrunc e 500)))
          ∧ (∀ n, n ∉ (Ls.take i).join → n ∉ pre → n ≠ s →
              (∀ (j : Nat) (hj : j < Ls.length), i < j → n ∉ Ls.get ⟨j, hj⟩) →
              dictGet (runLayers steps stepExcs stepOuts Ls st).jobs n
                = dictGet st.jobs n)
          ∧ (∀ (j : Nat) (hj : j < Ls.length), i < j → ∀ n ∈ Ls.get ⟨j, hj⟩,
              dictGet (runLayers steps stepExcs stepOuts Ls st).jobs n
                = some skipRec))) := by
  intro Ls
  induction Ls with
  | nil =>
    intro st hf
    exact ⟨fun _ => ⟨hf, rfl⟩, fun i s h => absurd h (by simp [firstStopFail])⟩
  | cons layer rest ih =>
    intro st hf
    have hrl : runLayers steps stepExcs stepOuts (layer :: rest) st
        = runLayers steps stepExcs stepOuts rest
            (runStepsInLayer steps stepExcs stepOuts layer st) := by
      simp only [runLayers]
      rw [if_neg (by simp [hf])]
    rw [hrl]
    cases hls : layerStopFail steps stepExcs stepOuts layer with
    | none =>
      have hnone : ∀ n ∈ layer, stopFailPred steps stepExcs stepOuts n = false := by
        intro n hn
        unfold layerStopFail at hls
        exact Bool.eq_false_iff.mpr (List.find?_eq_none.mp hls n hn)
      obtain ⟨g1, g2, g3, g4, g5⟩ :=
        runStepsInLayer_noStop steps stepExcs stepOuts layer st hnone
      have hf2 : (runStepsInLayer steps stepExcs stepOuts layer st).failed
          = false := by rw [g1, hf]
      obtain ⟨ihn, ihs⟩ := ih (runStepsInLayer steps stepExcs stepOuts layer st) hf2
      constructor
      · intro hfsf
        rw [firstStopFail_cons_none steps stepExcs stepOuts layer rest hls] at hfsf
        have hrest : firstStopFail steps stepExcs stepOuts rest = none := by
          cases hr : firstStopFail steps stepExcs stepOuts rest with
          | none => rfl
          | some r =>
            rw [hr] at hfsf
            exact absurd hfsf (by simp)
        obtain ⟨k1, k2⟩ := ihn hrest
        exact ⟨k1, by rw [k2, g2]⟩
      · intro i s hfsf
        rw [firstStopFail_cons_none steps stepExcs stepOuts layer rest hls] at hfsf
        obtain ⟨i2, hr, hi2, hs2⟩ : ∃ i2,
            firstStopFail steps stepExcs stepOuts rest = some (i2, s) ∧ i = i2 + 1
              ∧ True := by
          cases hr : firstStopFail steps stepExcs stepOuts rest with
          | none =>
            rw [hr] at hfsf
            exact absurd hfsf (by simp)
          | some r =>
            rw [hr] at hfsf
            dsimp only at hfsf
            have hp := Option.some.inj hfsf
            rw [Prod.mk.injEq] at hp
            exact ⟨r.1, by rw [← hp.2], hp.1.symm, trivial⟩
        subst hi2
        obtain ⟨hi2lt, pre, post, e, hget, m1, m2, m3, m4, m5⟩ := ihs i2 s hr
        refine ⟨Nat.succ_lt_succ hi2lt, pre, post, e, hget, m1,
          by rw [m2, g2], m3, ?_, ?_⟩
        · intro n hnt hnp hns hnl
          have hnlay : n ∉ layer := by
            intro hmem
            apply hnt
            rw [List.take_succ_cons]
            show n ∈ layer ++ (rest.take i2).join
            exact List.mem_append.mpr (Or.inl hmem)
          have hntk : n ∉ (rest.take i2).join := by
            intro hmem
            apply hnt
            rw [List.take_succ_cons]
            show n ∈ layer ++ (rest.take i2).join
            exact List.mem_append.mpr (Or.inr hmem)
          rw [m4 n hntk hnp hns
            (fun j hj hij => hnl (j + 1) (Nat.succ_lt_succ hj)
              (Nat.succ_lt_succ hij))]
          exact g5 n hnlay
        · intro j hj hij n hn
          cases j with
          | zero => omega
          | succ j2 =>
            exact m5 j2 (Nat.lt_of_succ_lt_succ hj) (Nat.lt_of_succ_lt_succ hij) n hn
    | some s =>
      unfold layerStopFail at hls
      obtain ⟨pre2, post2, heq, hpre2, hs2⟩ := find_split _ layer s hls
      subst heq
      have hfc := firstStopFail_cons_some steps stepExcs stepOuts
        (pre2 ++ s :: post2) rest s (by unfold layerStopFail; exact hls)
      obtain ⟨g1, g2, g3, ⟨e, g4⟩, g5⟩ :=
        runStepsInLayer_stop steps stepExcs stepOuts pre2 s post2 st hpre2 hs2
      obtain ⟨k1, k2, k3, k4, k5, k6⟩ := runLayers_failed steps stepExcs stepOuts
        rest (runStepsInLayer steps stepExcs stepOuts (pre2 ++ s :: post2) st) g1
      constructor
      · intro hfsf
        rw [hfc] at hfsf
        exact absurd hfsf (by simp)
      · intro i s2 hfsf
        rw [hfc] at hfsf
        have hp := Option.some.inj hfsf
        rw [Prod.mk.injEq] at hp
        obtain ⟨hi0, hss⟩ := hp
        subst hi0
        subst hss
        refine ⟨Nat.succ_pos rest.length, pre2, post2, e, rfl, k1,
          by rw [k2, g2], by rw [k3, g4], ?_, ?_⟩
        · intro n _ hnp hns hnl
          rw [k6 n ?_]
          · exact g5 n hnp hns
          · intro L hL hmem
            obtain ⟨j2, hj2⟩ := List.mem_iff_get.mp hL
            exact hnl (j2.1 + 1) (Nat.succ_lt_succ j2.2) (Nat.succ_pos j2.1)
              (by
                show n ∈ rest.get j2
                rw [hj2]
                exact hmem)
        · intro j hj hij n hn
          cases j with
          | zero => omega
          | succ j2 =>
            exact k5 n ⟨rest.get ⟨j2, Nat.lt_of_succ_lt_succ hj⟩,
              List.get_mem rest j2 (Nat.lt_of_succ_lt_succ hj), hn⟩

theorem get_mem_drop2 {α : Type} :
    ∀ (i : Nat) (l : List α) (j : Nat) (hj : j < l.length), i ≤ j →
      l.get ⟨j, hj⟩ ∈ l.drop i := by
  intro i
  induction i with
  | zero =>
    intro l j hj _
    exact List.get_mem l j hj
  | succ i ih =>
    intro l j hj hij
    cases l with
    | nil => exact absurd hj (by simp)
    | cons a t =>
      cases j with
      | zero => omega
      | succ j2 =>
        show t.get ⟨j2, Nat.lt_of_succ_lt_succ hj⟩ ∈ t.drop i
        exact ih t j2 (Nat.lt_of_succ_lt_succ hj) (Nat.le_of_succ_le_succ hij)

/-- In a layering with duplicate-free flattening, a member of layer `i`
is in no earlier-layer prefix and in no strictly later layer. -/
theorem join_nodup_layer_sep (Ls : List (List String)) (hnd : Ls.join.Nodup)
    (i : Nat) (hi : i < Ls.length) (n : String) (hn : n ∈ Ls.get ⟨i, hi⟩) :
    n ∉ (Ls.take i).join
    ∧ (∀ (j : Nat) (hj : j < Ls.length), i < j → n ∉ Ls.get ⟨j, hj⟩) := by
  have hdecomp : Ls.join
      = (Ls.take i).join ++ (Ls.get ⟨i, hi⟩ ++ (Ls.drop (i + 1)).join) := by
    conv_lhs => rw [← List.take_append_drop i Ls]
    show (List.take i Ls ++ List.drop i Ls).flatten
      = (Ls.take i).join ++ (Ls.get ⟨i, hi⟩ ++ (Ls.drop (i + 1)).join)
    rw [List.flatten_append, List.drop_eq_getElem_cons hi, List.get_eq_getElem]
    rfl
  rw [hdecomp] at hnd
  have hdisj := List.disjoint_of_nodup_append hnd
  have hnd2 := hnd.of_append_right
  have hdisj2 := List.disjoint_of_nodup_append hnd2
  constructor
  · intro hmem
    exact hdisj hmem (List.mem_append.mpr (Or.inl hn))
  · intro j hj hij hmem
    have hjd : Ls.get ⟨j, hj⟩ ∈ Ls.drop (i + 1) := get_mem_drop2 (i + 1) Ls j hj hij
    have hmem2 : n ∈ (Ls.drop (i + 1)).join :=
      List.mem_flatten.mpr ⟨Ls.get ⟨j, hj⟩, hjd, hmem⟩
    exact hdisj2 hn hmem2

theorem execute_eq (steps : List Step)
    (stepExcs : String → Nat → Option String)
    (stepOuts : String → List (String × JValue)) (layers : List (List String))
    (hok : topological_sort steps = .ok layers) :
    _execute_pipeline_steps steps stepExcs stepOuts
      = .ok { runLayers steps stepExcs stepOuts layers
                ⟨initJobs steps, [], "running", none, false, false⟩ with
              runStatus := if (runLayers steps stepExcs stepOuts layers
                  ⟨initJobs steps, [], "running", none, false, false⟩).failed
                then "failed" else "completed"
              runCompletedAt := true } := by
  unfold _execute_pipeline_steps
  rw [hok]

/-- C3: if the orchestrator hits a stop-policy step failure (the first one
being in layer `i`), the run ends `failed` with `completed_at` set and
every job of every strictly later layer reads
`failed / "Skipped: upstream step failed" / completed_at set`; if no
stop-policy step fails, the run ends `completed`. -/
theorem C3_stop_policy_semantics (steps : List Step)
    (stepExcs : String → Nat → Option String)
    (stepOuts : String → List (String × JValue))
    (layers : List (List String)) (st : ExecState)
    (hok : topological_sort steps = .ok layers)
    (hex : _execute_pipeline_steps steps stepExcs stepOuts = .ok st) :
    (∀ i s, firstStopFail steps stepExcs stepOuts layers = some (i, s) →
      st.runStatus = "failed" ∧ st.runCompletedAt = true
      ∧ ∀ (j : Nat) (hj : j < layers.length), i < j →
          ∀ n ∈ layers.get ⟨j, hj⟩, dictGet st.jobs n = some skipRec)
    ∧ (firstStopFail steps stepExcs stepOuts layers = none →
        st.runStatus = "completed" ∧ st.runCompletedAt = true) := by
  rw [execute_eq steps stepExcs stepOuts layers hok, Except.ok.injEq] at hex
  obtain ⟨hnone, hsome⟩ := runLayers_spec steps stepExcs stepOuts layers
    ⟨initJobs steps, [], "running", none, false, false⟩ rfl
  constructor
  · intro i s hfs
    obtain ⟨hi, pre, post, e, hget, m1, m2, m3, m4, m5⟩ := hsome i s hfs
    subst hex
    refine ⟨?_, rfl, ?_⟩
    · dsimp only
      rw [m1]
      rfl
    · intro j hj hij n hn
      dsimp only
      exact m5 j hj hij n hn
  · intro hfs
    obtain ⟨k1, k2⟩ := hnone hfs
    subst hex
    refine ⟨?_, rfl⟩
    dsimp only
    rw [k1]
    rfl

/-- A two-layer pipeline whose first step has stop policy and always
fails. -/
def c3steps : List Step :=
  [⟨"a", "t", [], some "stop"⟩, ⟨"b", "t", ["a"], none⟩]

def c3excs : String → Nat → Option String :=
  fun n _ => if n = "a" then some "boom" else none

def c3outs : String → List (String × JValue) := fun _ => []

theorem C3_witness :
    ∃ st, _execute_pipeline_steps c3steps c3excs c3outs = Except.ok st
      ∧ st.runStatus = "failed" ∧ st.runCompletedAt = true
      ∧ dictGet st.jobs "b" = some skipRec := by
  refine ⟨_, rfl, ?_⟩
  have h := (C3_stop_policy_semantics c3steps c3excs c3outs [["a"], ["b"]] _
    (by rfl) (by rfl)).1 0 "a" (by rfl)
  exact ⟨h.1, h.2.1, h.2.2 1 (by decide) (by decide) "b" (by decide)⟩

theorem join_nodup_layer_nodup (Ls : List (List String)) (hnd : Ls.join.Nodup)
    (i : Nat) (hi : i < Ls.length) : (Ls.get ⟨i, hi⟩).Nodup := by
  have hdecomp : Ls.join
      = (Ls.take i).join ++ (Ls.get ⟨i, hi⟩ ++ (Ls.drop (i + 1)).join) := by
    conv_lhs => rw [← List.take_append_drop i Ls]
    show (List.take i Ls ++ List.drop i Ls).flatten
      = (Ls.take i).join ++ (Ls.get ⟨i, hi⟩ ++ (Ls.drop (i + 1)).join)
    rw [List.flatten_append, List.drop_eq_getElem_cons hi, List.get_eq_getElem]
    rfl
  rw [hdecomp] at hnd
  exact (hnd.of_append_right).of_append_left

/-- C9: when the first stop-policy failure hits step `s` of layer `i`, the
not-yet-dispatched steps of the same layer — those after `s` — keep their
job records `queued` in the terminal state (no skip error, no failure),
while every job of every strictly later layer reads the skip record. -/
theorem C9_abandoned_layer_stays_queued (steps : List Step)
    (stepExcs : String → Nat → Option String)
    (stepOuts : String → List (String × JValue))
    (layers : List (List String)) (st : ExecState) (i : Nat) (s : String)
    (hok : topological_sort steps = .ok layers)
    (hex : _execute_pipeline_steps steps stepExcs stepOuts = .ok st)
    (hfs : firstStopFail steps stepExcs stepOuts layers = some (i, s)) :
    ∃ (hi : i < layers.length) (pre post : List String),
      layers.get ⟨i, hi⟩ = pre ++ s :: post
      ∧ st.runStatus = "failed"
      ∧ (∀ n ∈ post, dictGet st.jobs n = some queuedRec)
      ∧ (∀ (j : Nat) (hj : j < layers.length), i < j →
          ∀ n ∈ layers.get ⟨j, hj⟩, dictGet st.jobs n = some skipRec) := by
  obtain ⟨hjnd, hjmem, -⟩ := topological_sort_ok_char steps layers hok
  rw [execute_eq steps stepExcs stepOuts layers hok, Except.ok.injEq] at hex
  obtain ⟨-, hsome⟩ := runLayers_spec steps stepExcs stepOuts layers
    ⟨initJobs steps, [], "running", none, false, false⟩ rfl
  obtain ⟨hi, pre, post, e, hget, m1, m2, m3, m4, m5⟩ := hsome i s hfs
  subst hex
  refine ⟨hi, pre, post, hget, ?_, ?_, ?_⟩
  · dsimp only
    rw [m1]
    rfl
  · intro n hn
    have hnlayer : n ∈ layers.get ⟨i, hi⟩ := by
      rw [hget]
      exact List.mem_append.mpr (Or.inr (List.mem_cons_of_mem s hn))
    obtain ⟨hsep1, hsep2⟩ := join_nodup_layer_sep layers hjnd i hi n hnlayer
    have hlnd : (pre ++ s :: post).Nodup := by
      rw [← hget]
      exact join_nodup_layer_nodup layers hjnd i hi
    have hnpre : n ∉ pre := by
      intro hmem
      exact List.disjoint_of_nodup_append hlnd hmem (List.mem_cons_of_mem s hn)
    have hnns : n ≠ s := by
      intro hmem
      exact (hlnd.of_append_right).not_mem (hmem ▸ hn)
    have hframe := m4 n hsep1 hnpre hnns hsep2
    dsimp only
    rw [hframe]
    show dictGet (initJobs steps) n = some queuedRec
    unfold initJobs
    rw [foldInit_get queuedRec steps [] n, if_pos]
    exact (hjmem n).mp (List.mem_flatten.mpr
      ⟨layers.get ⟨i, hi⟩, List.get_mem layers i hi, hnlayer⟩)
  · intro j hj hij n hn
    dsimp only
    exact m5 j hj hij n hn

/-- A pipeline whose first layer holds the always-failing stop step `a`
followed by `b`, with `c` in the next layer. -/
def c9steps : List Step :=
  [⟨"a", "t", [], some "stop"⟩, ⟨"b", "t", [], none⟩, ⟨"c", "t", ["a"], none⟩]

def c9excs : String → Nat → Option String :=
  fun n _ => if n = "a" then some "boom" else none

def c9outs : String → List (String × JValue) := fun _ => []

theorem C9_witness :
    ∃ st, _execute_pipeline_steps c9steps c9excs c9outs = Except.ok st
      ∧ st.runStatus = "failed"
      ∧ dictGet st.jobs "b" = some queuedRec
      ∧ dictGet st.jobs "c" = some skipRec := by
  refine ⟨_, rfl, ?_⟩
  obtain ⟨hi, pre, post, hget, h1, h2, h3⟩ :=
    C9_abandoned_layer_stays_queued c9steps c9excs c9outs [["a", "b"], ["c"]] _
      0 "a" (by rfl) (by rfl) (by rfl)
  have hget2 : ["a", "b"] = pre ++ "a" :: post := hget
  have hb : "b" ∈ post := by
    cases pre with
    | nil =>
      rw [List.nil_append, List.cons.injEq] at hget2
      rw [← hget2.2]
      exact List.mem_cons_self "b" []
    | cons x pre2 =>
      rw [List.cons_append, List.cons.injEq] at hget2
      cases pre2 with
      | nil =>
        rw [List.nil_append, List.cons.injEq] at hget2
        exact absurd hget2.2.1 (by decide)
      | cons y pre3 =>
        rw [List.cons_append, List.cons.injEq] at hget2
        exact absurd (congrArg List.length hget2.2.2) (by simp; omega)
  exact ⟨h1, h2 "b" hb, h3 1 (by decide) (by decide) "c" (by decide)⟩

end RunningAgent
